import Mathlib

/-!
# ts-blame-reporter: a verification development over `main.go`

A Go string is modelled by its text, a `List Char` (the code points of valid UTF-8);
where the program depends on the bytes of a string, in the comparison `<` of
`printReport` and in the buffer of `bufio.Scanner`, the bytes are those of the UTF-8
encoding.  The three compiled patterns of `main.go` are values of a small pattern
language whose matcher backtracks leftmost-first, the matching discipline of Go's
`regexp` package.  The file system and the `git` subprocess are an explicit
environment, and the order in which a Go map yields its entries is left open.
-/

namespace TsBlame

/-! ## Text -/

/-- Text of a Go string: the sequence of its code points. -/
abbrev Str := List Char

/-- Character class `\d` of Go's regexp syntax: `[0-9]`. -/
def isDigit (c : Char) : Bool := 48 ≤ c.toNat && c.toNat ≤ 57

/-- ASCII letter, `[a-zA-Z]`. -/
def isLetter (c : Char) : Bool :=
  (97 ≤ c.toNat && c.toNat ≤ 122) || (65 ≤ c.toNat && c.toNat ≤ 90)

/-- Character class `\w` of Go's regexp syntax: `[0-9A-Za-z_]`. -/
def isWord (c : Char) : Bool := isDigit c || isLetter c || c.toNat = 95

/-- Character class `\s` of Go's regexp syntax: `[\t\n\f\r ]`. -/
def isReSpace (c : Char) : Bool :=
  c.toNat = 9 || c.toNat = 10 || c.toNat = 12 || c.toNat = 13 || c.toNat = 32

/-- Character class `[\w./\\~@%:-]` of `tsErrorRegex`. -/
def isPathChar (c : Char) : Bool :=
  isWord c || c.toNat = 46 || c.toNat = 47 || c.toNat = 92 || c.toNat = 126 ||
    c.toNat = 64 || c.toNat = 37 || c.toNat = 58 || c.toNat = 45

/-- Character class `[0-9;]` of `ansiRegex`. -/
def isAnsiParam (c : Char) : Bool := isDigit c || c.toNat = 59

/-- Pattern `.` of Go's regexp syntax without the `s` flag: any character but newline. -/
def isNotNewline (c : Char) : Bool := !(c.toNat = 10)

/-- The character with code point `n`, as a one-element class. -/
def isCode (n : Nat) (c : Char) : Bool := c.toNat = n

/-- Literal character as a one-element class. -/
def isChar (d : Char) : Char → Bool := isCode d.toNat

/-! ## Patterns and the leftmost-first matcher -/

/-- One element of a pattern: the subset of Go's regexp syntax that the three
patterns of `main.go` use. -/
inductive Item where
  /-- Anchor `^` (no `m` flag): the beginning of the text. -/
  | bol
  /-- One character of a class (a literal is a one-element class). -/
  | one (p : Char → Bool)
  /-- Greedy `x*` over a class. -/
  | star (p : Char → Bool)
  /-- Greedy `x+` over a class. -/
  | plus (p : Char → Bool)
  /-- Opening parenthesis of a capture group. -/
  | gopen
  /-- Closing parenthesis of a capture group. -/
  | gclose

/-- Position of the matcher in the text. -/
structure Cur where
  /-- Offset of the position from the beginning of the text. -/
  off : Nat
  /-- Text that is still to be read. -/
  rest : Str
  /-- Characters read since the last opening parenthesis, last one first. -/
  grp : Str
  /-- Texts of the capture groups closed so far, in order. -/
  caps : List Str
  /-- Number of characters read since the match began. -/
  len : Nat

/-- Greedy repetition of a class with continuation `k`: one more character is
tried first, and the continuation at the current position only when that fails. -/
def starK (p : Char → Bool) (k : Cur → Option Cur) :
    Str → Nat → Str → List Str → Nat → Option Cur
  | [], off, grp, caps, len => k ⟨off, [], grp, caps, len⟩
  | c :: s, off, grp, caps, len =>
    if p c then
      match starK p k s (off + 1) (c :: grp) caps (len + 1) with
      | some r => some r
      | none => k ⟨off, c :: s, grp, caps, len⟩
    else k ⟨off, c :: s, grp, caps, len⟩

/-- One pattern element followed by the continuation `k`. -/
def Item.run (k : Cur → Option Cur) : Item → Cur → Option Cur
  | .bol, st => if st.off = 0 then k st else none
  | .one p, st =>
    match st.rest with
    | c :: s => if p c then k ⟨st.off + 1, s, c :: st.grp, st.caps, st.len + 1⟩ else none
    | [] => none
  | .star p, st => starK p k st.rest st.off st.grp st.caps st.len
  | .plus p, st =>
    match st.rest with
    | c :: s =>
      if p c then starK p k s (st.off + 1) (c :: st.grp) st.caps (st.len + 1) else none
    | [] => none
  | .gopen, st => k ⟨st.off, st.rest, [], st.caps, st.len⟩
  | .gclose, st => k ⟨st.off, st.rest, st.grp, st.caps ++ [st.grp.reverse], st.len⟩

/-- Match of a whole pattern at a position, first alternative first. -/
def matchItems : List Item → Cur → Option Cur
  | [], st => some st
  | it :: its, st => it.run (matchItems its) st

/-- Match of a pattern beginning at offset `off` of the text, whose remainder is `s`. -/
def matchAt (re : List Item) (off : Nat) (s : Str) : Option Cur :=
  matchItems re ⟨off, s, [], [], 0⟩

/-- Literal text as a pattern. -/
def lit (s : String) : List Item := s.toList.map fun d => Item.one (isChar d)

/-- Leftmost match: offsets are tried from left to right. -/
def findFrom (re : List Item) : Nat → Str → Option (Str × Cur)
  | off, [] => (matchAt re off []).map fun r => ([], r)
  | off, c :: s =>
    match matchAt re off (c :: s) with
    | some r => some (c :: s, r)
    | none => findFrom re (off + 1) s

/-- Go's `(*Regexp).FindStringSubmatch`: the text of the leftmost match followed by
the texts of its capture groups, or the empty slice when nothing matches. -/
def findStringSubmatch (re : List Item) (s : Str) : List Str :=
  match findFrom re 0 s with
  | some (t, r) => t.take r.len :: r.caps
  | none => []

/-- Loop of Go's `(*Regexp).ReplaceAllString` with the empty replacement: `skip`
characters of the last match are still to be dropped. -/
def replaceAllEmpty (re : List Item) : Nat → Nat → Str → Str
  | _, _, [] => []
  | skip + 1, off, _ :: s => replaceAllEmpty re skip (off + 1) s
  | 0, off, c :: s =>
    match matchAt re off (c :: s) with
    | some r =>
      match r.len with
      | 0 => c :: replaceAllEmpty re 0 (off + 1) s
      | n + 1 => replaceAllEmpty re n (off + 1) s
    | none => c :: replaceAllEmpty re 0 (off + 1) s

/-! ## The patterns of `main.go` -/

/-- The pattern `^([\w./\\~@%:-]+)\((\d+),(\d+)\):\serror\sTS\d+:`. -/
def tsErrorRegex : List Item :=
  [.bol, .gopen, .plus isPathChar, .gclose] ++ lit "(" ++
  [.gopen, .plus isDigit, .gclose] ++ lit "," ++
  [.gopen, .plus isDigit, .gclose] ++ lit "):" ++
  [.one isReSpace] ++ lit "error" ++ [.one isReSpace] ++ lit "TS" ++
  [.plus isDigit] ++ lit ":"

/-- The pattern `^author\s+(.*)`. -/
def gitAuthorRegex : List Item :=
  [.bol] ++ lit "author" ++ [.plus isReSpace, .gopen, .star isNotNewline, .gclose]

/-- The pattern `\x1b\[[0-9;]*[a-zA-Z]`. -/
def ansiRegex : List Item :=
  lit "\x1b[" ++ [.star isAnsiParam, .one isLetter]

/-- The function `stripAnsi` of `main.go`. -/
def stripAnsi (str : Str) : Str := replaceAllEmpty ansiRegex 0 0 str

/-! ## Library functions used by `main.go` -/

/-- Go's `unicode.IsSpace`. -/
def isSpace (c : Char) : Bool :=
  let n := c.toNat
  (9 ≤ n && n ≤ 13) || n = 32 || n = 133 || n = 160 || n = 5760 ||
    (8192 ≤ n && n ≤ 8202) || n = 8232 || n = 8233 || n = 8239 || n = 8287 || n = 12288

/-- Go's `strings.TrimSpace`. -/
def trimSpace (s : Str) : Str :=
  ((s.dropWhile isSpace).reverse.dropWhile isSpace).reverse

/-- The call `strings.ReplaceAll(s, "\\", "/")`: every backslash becomes a slash. -/
def backslashToSlash (s : Str) : Str :=
  s.map fun c => if c.toNat = 92 then Char.ofNat 47 else c

/-- The call `strings.ReplaceAll(s, "\n", " ")`: every newline becomes a blank. -/
def newlineToBlank (s : Str) : Str :=
  s.map fun c => if c.toNat = 10 then Char.ofNat 32 else c

/-- The bytes of the UTF-8 encoding of a code point, Go's `utf8.EncodeRune`. -/
def utf8Encode (c : Char) : List Nat :=
  let n := c.toNat
  if n < 128 then [n]
  else if n < 2048 then [192 + n / 64, 128 + n % 64]
  else if n < 65536 then [224 + n / 4096, 128 + n / 64 % 64, 128 + n % 64]
  else [240 + n / 262144, 128 + n / 4096 % 64, 128 + n / 64 % 64, 128 + n % 64]

/-- The bytes of a Go string whose text is `s`. -/
def utf8Bytes : Str → List Nat
  | [] => []
  | c :: s => utf8Encode c ++ utf8Bytes s

/-- Number of bytes of a text, Go's `len(s)`. -/
def utf8Len (s : Str) : Nat := (utf8Bytes s).length

/-- Go's `bufio.MaxScanTokenSize`, the largest buffer of a `bufio.Scanner`. -/
def maxScanTokenSize : Nat := 64 * 1024

/-- The helper `dropCR` of `bufio.ScanLines`: one trailing carriage return is dropped. -/
def dropCR (s : Str) : Str :=
  if s.getLast? = some (Char.ofNat 13) then s.dropLast else s

/-- The lines of a text as `bufio.ScanLines` cuts them: the pieces that end at a newline
character, and the rest of the text after the last newline unless it is empty.  `cur`
holds the characters of the current piece, last one first. -/
def splitLinesFrom : Str → Str → List Str
  | cur, [] => if cur = [] then [] else [cur.reverse]
  | cur, c :: s =>
    if c.toNat = 10 then cur.reverse :: splitLinesFrom [] s else splitLinesFrom (c :: cur) s

/-- The lines of a text, each without its newline. -/
def splitLines (text : Str) : List Str := splitLinesFrom [] text

/-- A line fits the buffer of a `bufio.Scanner`, which grows to `maxScanTokenSize` bytes
and must hold the line before its end is seen: the line has fewer bytes than that. -/
def fitsToken (l : Str) : Bool := decide (utf8Len l < maxScanTokenSize)

/-- Go's `bufio.Scanner` with the default split function `bufio.ScanLines`, run to the
end: the tokens that `Scan` delivers, and whether `Err` is non-nil afterwards.  The first
line that does not fit the buffer ends the scan with `bufio.ErrTooLong`. -/
def scanLines (text : Str) : List Str × Bool :=
  (((splitLines text).takeWhile fitsToken).map dropCR,
    (splitLines text).any fun l => !fitsToken l)

/-! ## `parseErrorLine` -/

/-- The function `parseErrorLine` of `main.go`. -/
def parseErrorLine (logLine : Str) : Str × Str × Bool :=
  if logLine = [] then ([], [], false)
  else
    let submatches := findStringSubmatch tsErrorRegex logLine
    if submatches.length = 4 then
      (backslashToSlash (submatches.getD 1 []), submatches.getD 2 [], true)
    else ([], [], false)

/-! ## `getAuthorFromGitBlame` -/

/-- The file system and the `git` subprocess.  The first argument of both fields is
the number of blame lookups made before this one, so that the answer to a lookup may
depend on when it is made. -/
structure World where
  /-- Whether `os.IsNotExist` holds of the error of `os.Stat(filePath)`. -/
  notExist : Nat → Str → Bool
  /-- Run of `git blame -L n,n --line-porcelain filePath`: the captured standard
  output when `cmd.Run` returns nil, the captured standard error otherwise. -/
  runBlame : Nat → Str → Str → Except Str Str

/-- The non-nil errors that `getAuthorFromGitBlame` builds with `fmt.Errorf`. -/
inductive BlameError where
  /-- The error "file %s not found: %w". -/
  | fileNotFound (filePath : Str)
  /-- The error "git blame failed for %s:%s: %w (stderr: %s)". -/
  | blameFailed (filePath lineNumber errMsg : Str)
  /-- The error "error scanning git blame output for %s:%s: %w". -/
  | scanFailed (filePath lineNumber : Str)
deriving DecidableEq

/-- Body of the loop over `blameScanner`: the trimmed first capture group of the first
line that `gitAuthorRegex` matches. -/
def firstAuthor : List Str → Option Str
  | [] => none
  | blameLine :: rest =>
    let submatches := findStringSubmatch gitAuthorRegex blameLine
    if submatches.length = 2 then some (trimSpace (submatches.getD 1 []))
    else firstAuthor rest

/-- Lines 119 to 131 of `main.go`: the scan of the captured blame output. -/
def scanBlameOutput (filePath lineNumber out : Str) : Str × Option BlameError :=
  match firstAuthor (scanLines out).1 with
  | some author => (author, none)
  | none =>
    if (scanLines out).2 then
      ("error_scanning_blame_output".toList, some (.scanFailed filePath lineNumber))
    else ("unknown_author_not_found_in_blame".toList, none)

/-- The function `getAuthorFromGitBlame` of `main.go`; `k` is the number of lookups
made before. -/
def getAuthorFromGitBlame (w : World) (k : Nat) (filePath lineNumber : Str) :
    Str × Option BlameError :=
  if w.notExist k filePath then
    ("unknown_file_not_found".toList, some (.fileNotFound filePath))
  else
    match w.runBlame k filePath lineNumber with
    | .error stderr =>
      ("git_blame_execution_error".toList,
        some (.blameFailed filePath lineNumber (newlineToBlank (trimSpace stderr))))
    | .ok out => scanBlameOutput filePath lineNumber out

/-! ## The main loop -/

/-- Go's `map[string]int` as a list of entries with pairwise distinct keys. -/
abbrev Tally := List (Str × Nat)

/-- The statement `authorErrors[author]++`. -/
def increment : Tally → Str → Tally
  | [], author => [(author, 1)]
  | (a, n) :: m, author =>
    if a = author then (a, n + 1) :: m else (a, n) :: increment m author

/-- Variables of `main` and the trace of its calls of `getAuthorFromGitBlame`.  The
counters are Go `int`s; they count input lines and cannot wrap on an input that fits
in memory. -/
structure MainState where
  /-- The map `authorErrors`. -/
  authorErrors : Tally
  /-- The counter `processedErrorLines`. -/
  processedErrorLines : Nat
  /-- The counter `actualErrorsFoundByRegex`. -/
  actualErrorsFoundByRegex : Nat
  /-- Arguments of the blame lookups made so far, in order. -/
  blameCalls : List (Str × Str)

/-- State of `main` before the first line is read. -/
def MainState.init : MainState := ⟨[], 0, 0, []⟩

/-- Lines 62 to 69 of `main.go`: the author under which a lookup result is counted. -/
def attributedAuthor (r : Str × Option BlameError) : Str :=
  let author := if r.2.isSome then "unknown_blame_error".toList else r.1
  if author = [] then "unknown_author_empty".toList else author

/-- One iteration of the loop of `main` on the token `rawLine`. -/
def mainStep (w : World) (st : MainState) (rawLine : Str) : MainState :=
  let line := stripAnsi rawLine
  let (filePath, lineNumber, isError) := parseErrorLine line
  if isError then
    let author :=
      attributedAuthor (getAuthorFromGitBlame w st.blameCalls.length filePath lineNumber)
    { authorErrors := increment st.authorErrors author
      processedErrorLines := st.processedErrorLines + 1
      actualErrorsFoundByRegex := st.actualErrorsFoundByRegex + 1
      blameCalls := st.blameCalls ++ [(filePath, lineNumber)] }
  else { st with processedErrorLines := st.processedErrorLines + 1 }

/-- The loop of `main` over the tokens of the standard input. -/
def mainLoop (w : World) (st : MainState) (lines : List Str) : MainState :=
  lines.foldl (mainStep w) st

/-! ## `printReport` -/

/-- The type `authorErrorCount` of `main.go`. -/
structure AuthorErrorCount where
  /-- Field `Author`. -/
  Author : Str
  /-- Field `Count`. -/
  Count : Nat
deriving DecidableEq

/-- Lexicographic order of byte sequences. -/
def bytesLess : List Nat → List Nat → Bool
  | [], [] => false
  | [], _ :: _ => true
  | _ :: _, [] => false
  | a :: s, b :: t => decide (a < b) || (decide (a = b) && bytesLess s t)

/-- Go's `<` on strings: the lexicographic order of their bytes. -/
def strLess (a b : Str) : Bool := bytesLess (utf8Bytes a) (utf8Bytes b)

/-- The comparison function handed to `sort.Slice` in `printReport`. -/
def less (x y : AuthorErrorCount) : Bool :=
  if x.Count = y.Count then strLess x.Author y.Author else decide (x.Count > y.Count)

/-- Contract of Go's `sort.Slice`: the slice is rearranged so that no element is
`less` than an element before it. -/
def IsSortSliceResult (counts result : List AuthorErrorCount) : Prop :=
  result.Perm counts ∧ result.Pairwise (fun x y => less y x = false)

/-- Executable `sort.Slice` with the comparison of `printReport`: insertion sort, the
algorithm Go runs on slices of at most twelve elements. -/
def sortSlice (counts : List AuthorErrorCount) : List AuthorErrorCount :=
  counts.insertionSort fun x y => less y x = false

/-- What `printReport` writes to the standard output. -/
inductive Report where
  /-- The fixed text for an empty map. -/
  | noErrors
  /-- The rows in the order printed and the printed grand total. -/
  | table (rows : List AuthorErrorCount) (totalReportedErrors : Nat)
deriving DecidableEq

/-- The function `printReport` of `main.go`.  The argument lists the entries of the
map `errorCounts` in the order in which the `range` loop yields them, which Go leaves
unspecified. -/
def printReport (ranged : Tally) : Report :=
  if ranged.length = 0 then .noErrors
  else
    let counts := sortSlice (ranged.map fun e => ⟨e.1, e.2⟩)
    .table counts (counts.foldl (fun total item => total + item.Count) 0)

/-- The rows of a report; none for the fixed text. -/
def Report.rows : Report → List AuthorErrorCount
  | .noErrors => []
  | .table rows _ => rows

/-! ## Escape sequences, as the specification words them -/

/-- Length of the escape sequence that begins the text, if one does: ESC, `[`, any
number of digits or `;`, one ASCII letter. -/
def ansiSeqLen : Str → Option Nat
  | e :: b :: s =>
    if e.toNat = 27 ∧ b.toNat = 91 then
      match s.dropWhile isAnsiParam with
      | l :: _ => if isLetter l then some ((s.takeWhile isAnsiParam).length + 3) else none
      | [] => none
    else none
  | _ => none

/-- Some escape sequence occurs in the text. -/
def containsAnsiSeq : Str → Bool
  | [] => false
  | c :: s => (ansiSeqLen (c :: s)).isSome || containsAnsiSeq s

/-- Every ESC character of the text begins an escape sequence. -/
def everyEscOpensSeq : Str → Bool
  | [] => true
  | c :: s => (!(c.toNat = 27) || (ansiSeqLen (c :: s)).isSome) && everyEscOpensSeq s

/-! ## Diagnostic lines, as the specification words them -/

/-- Non-empty text made up solely of characters of the class `p`. -/
def isRun (p : Char → Bool) (s : Str) : Bool := !s.isEmpty && s.all p

/-- The text `<path>(<ln>,<col>):` + whitespace + `error` + whitespace + `TS<code>:`
followed by `tail`. -/
def diagnosticText (path ln col : Str) (w1 w2 : Char) (code tail : Str) : Str :=
  path ++ ("(".toList ++ (ln ++ (",".toList ++ (col ++ ("):".toList ++ (w1 ::
    ("error".toList ++ (w2 :: ("TS".toList ++ (code ++ (":".toList ++ tail)))))))))))

/-- The line begins with a file path over the class `pathClass` that is immediately
followed by `(<digits>,<digits>):`, one whitespace character, `error`, one whitespace
character and `TS<digits>:`. -/
def IsDiagnostic (pathClass : Char → Bool) (line : Str) : Prop :=
  ∃ (path ln col : Str) (w1 w2 : Char) (code tail : Str),
    line = diagnosticText path ln col w1 w2 code tail ∧
      isRun pathClass path = true ∧ isRun isDigit ln = true ∧ isRun isDigit col = true ∧
      isReSpace w1 = true ∧ isReSpace w2 = true ∧ isRun isDigit code = true

/-- The path characters that the specification lists: letters, digits and
`. / \ ~ @ % : -`. -/
def isSpecPathChar (c : Char) : Bool :=
  isLetter c || isDigit c || isCode 46 c || isCode 47 c || isCode 92 c || isCode 126 c ||
    isCode 64 c || isCode 37 c || isCode 58 c || isCode 45 c

/-! ## Blame output, as the specification words it -/

/-- The line begins with the marker `author` followed by a whitespace character of the
class `\s`. -/
def beginsWithAuthorMarker (l : Str) : Bool :=
  match l.drop 6 with
  | c :: _ => decide (l.take 6 = "author".toList) && isReSpace c
  | [] => false

/-! ## The tally and the report, as the specification words them -/

/-- The count of an author in the tally, Go's `authorErrors[author]`: zero for an author
that is not a key. -/
def tallyCount : Tally → Str → Nat
  | [], _ => 0
  | (a, n) :: m, author => if a = author then n else tallyCount m author

/-- The sum of all counts of the tally. -/
def tallyTotal (m : Tally) : Nat := (m.map Prod.snd).sum

/-- The parser reports a match on the sanitized line. -/
def isMatched (rawLine : Str) : Bool := (parseErrorLine (stripAnsi rawLine)).2.2

/-- The row of the report for an entry of the tally. -/
def toRow (e : Str × Nat) : AuthorErrorCount := ⟨e.1, e.2⟩

/-- Row `x` may stand before row `y`: the count of `x` is not smaller, and with equal
counts the author of `y` is not smaller than the author of `x`. -/
def InReportOrder (x y : AuthorErrorCount) : Prop :=
  y.Count ≤ x.Count ∧ (x.Count = y.Count → strLess y.Author x.Author = false)

/-! ## The matcher on deterministic patterns -/

/-- Continuation `k` fails wherever the next character is in the class `p`. -/
def Rejects (k : Cur → Option Cur) (p : Char → Bool) : Prop :=
  ∀ st c s, st.rest = c :: s → p c = true → k st = none

theorem starK_det {p : Char → Bool} {k : Cur → Option Cur} (hk : Rejects k p) :
    ∀ (s : Str) (off : Nat) (grp : Str) (caps : List Str) (len : Nat),
      starK p k s off grp caps len =
        k ⟨off + (s.takeWhile p).length, s.dropWhile p, (s.takeWhile p).reverse ++ grp,
          caps, len + (s.takeWhile p).length⟩ := by
  intro s
  induction s with
  | nil => intro off grp caps len; simp [starK]
  | cons c s ih =>
    intro off grp caps len
    by_cases hp : p c = true
    · have e1 : off + 1 + (s.takeWhile p).length = off + ((s.takeWhile p).length + 1) := by
        omega
      have e2 : len + 1 + (s.takeWhile p).length = len + ((s.takeWhile p).length + 1) := by
        omega
      simp only [starK, hp, if_true, ih, List.takeWhile_cons, List.dropWhile_cons,
        List.length_cons, List.reverse_cons, List.append_assoc, List.singleton_append, e1, e2]
      split
      · next r h => exact h.symm
      · next h =>
        rw [h]
        exact hk _ c s rfl hp
    · simp [starK, hp]

theorem starK_greedy {p : Char → Bool} {k : Cur → Option Cur} :
    ∀ (s : Str) (off : Nat) (grp : Str) (caps : List Str) (len : Nat) (r : Cur),
      k ⟨off + (s.takeWhile p).length, s.dropWhile p, (s.takeWhile p).reverse ++ grp,
          caps, len + (s.takeWhile p).length⟩ = some r →
      starK p k s off grp caps len = some r := by
  intro s
  induction s with
  | nil => intro off grp caps len r h; simpa [starK] using h
  | cons c s ih =>
    intro off grp caps len r h
    by_cases hp : p c = true
    · have e1 : off + 1 + (s.takeWhile p).length = off + ((s.takeWhile p).length + 1) := by
        omega
      have e2 : len + 1 + (s.takeWhile p).length = len + ((s.takeWhile p).length + 1) := by
        omega
      have h2 := ih (off + 1) (c :: grp) caps (len + 1) r (by
        simpa [hp, e1, e2] using h)
      simp [starK, hp, h2]
    · simpa [starK, hp] using h

/-! ## `stripAnsi` -/

theorem matchItems_one_cons (p : Char → Bool) (its : List Item) (off : Nat) (c : Char)
    (s grp : Str) (caps : List Str) (len : Nat) :
    matchItems (.one p :: its) ⟨off, c :: s, grp, caps, len⟩ =
      if p c then matchItems its ⟨off + 1, s, c :: grp, caps, len + 1⟩ else none := rfl

theorem matchItems_one_nil (p : Char → Bool) (its : List Item) (off : Nat)
    (grp : Str) (caps : List Str) (len : Nat) :
    matchItems (.one p :: its) ⟨off, [], grp, caps, len⟩ = none := rfl

theorem matchItems_bol (its : List Item) (off : Nat) (s grp : Str) (caps : List Str)
    (len : Nat) :
    matchItems (.bol :: its) ⟨off, s, grp, caps, len⟩ =
      if off = 0 then matchItems its ⟨off, s, grp, caps, len⟩ else none := rfl

theorem matchItems_gopen (its : List Item) (off : Nat) (s grp : Str) (caps : List Str)
    (len : Nat) :
    matchItems (.gopen :: its) ⟨off, s, grp, caps, len⟩ =
      matchItems its ⟨off, s, [], caps, len⟩ := rfl

theorem matchItems_gclose (its : List Item) (off : Nat) (s grp : Str) (caps : List Str)
    (len : Nat) :
    matchItems (.gclose :: its) ⟨off, s, grp, caps, len⟩ =
      matchItems its ⟨off, s, grp, caps ++ [grp.reverse], len⟩ := rfl

theorem matchItems_nil (st : Cur) : matchItems [] st = some st := rfl

theorem rejects_one {p q : Char → Bool} (its : List Item)
    (h : ∀ c, p c = true → q c = false) : Rejects (matchItems (.one q :: its)) p := by
  intro st c s hs hp
  obtain ⟨off, rest, grp, caps, len⟩ := st
  simp only at hs
  subst hs
  simp [matchItems_one_cons, h c hp]

theorem rejects_gclose {p : Char → Bool} {its : List Item} (h : Rejects (matchItems its) p) :
    Rejects (matchItems (.gclose :: its)) p := by
  intro st c s hs hp
  exact h _ c s hs hp

theorem matchItems_star_det {p : Char → Bool} {its : List Item}
    (h : Rejects (matchItems its) p) (off : Nat) (s grp : Str) (caps : List Str)
    (len : Nat) :
    matchItems (.star p :: its) ⟨off, s, grp, caps, len⟩ =
      matchItems its ⟨off + (s.takeWhile p).length, s.dropWhile p,
        (s.takeWhile p).reverse ++ grp, caps, len + (s.takeWhile p).length⟩ :=
  starK_det h s off grp caps len

theorem matchItems_plus_det {p : Char → Bool} {its : List Item}
    (h : Rejects (matchItems its) p) (off : Nat) (s grp : Str) (caps : List Str)
    (len : Nat) :
    matchItems (.plus p :: its) ⟨off, s, grp, caps, len⟩ =
      if s.takeWhile p = [] then none
      else matchItems its ⟨off + (s.takeWhile p).length, s.dropWhile p,
        (s.takeWhile p).reverse ++ grp, caps, len + (s.takeWhile p).length⟩ := by
  cases s with
  | nil => rfl
  | cons c s =>
    by_cases hp : p c = true
    · have e1 : off + 1 + (s.takeWhile p).length = off + ((s.takeWhile p).length + 1) := by
        omega
      have e2 : len + 1 + (s.takeWhile p).length = len + ((s.takeWhile p).length + 1) := by
        omega
      show (if p c = true then starK p (matchItems its) s (off + 1) (c :: grp) caps (len + 1)
        else none) = _
      rw [if_pos hp, starK_det h]
      simp [hp, e1, e2]
    · show (if p c = true then starK p (matchItems its) s (off + 1) (c :: grp) caps (len + 1)
        else none) = _
      simp [hp]

theorem ansiRegex_eq :
    ansiRegex = [.one (isCode 27), .one (isCode 91), .star isAnsiParam, .one isLetter] := rfl

theorem isLetter_of_isAnsiParam (c : Char) (hc : isAnsiParam c = true) :
    isLetter c = false := by
  simp only [isAnsiParam, isDigit, isLetter, Bool.or_eq_true, Bool.and_eq_true,
    decide_eq_true_eq] at hc
  simp only [isLetter, Bool.or_eq_false_iff, Bool.and_eq_false_iff, decide_eq_false_iff_not]
  omega

theorem matchAt_ansi_len (off : Nat) (s : Str) :
    (matchAt ansiRegex off s).map Cur.len = ansiSeqLen s := by
  have hrej : Rejects (matchItems [.one isLetter]) isAnsiParam :=
    rejects_one [] isLetter_of_isAnsiParam
  rw [ansiRegex_eq]
  match s with
  | [] => rfl
  | [e] => simp [matchAt, matchItems_one_cons, matchItems_one_nil, ansiSeqLen]
  | e :: b :: s =>
    simp only [matchAt, matchItems_one_cons, ansiSeqLen, isCode]
    by_cases he : e.toNat = 27
    · by_cases hb : b.toNat = 91
      · simp only [he, hb, decide_True, if_true, and_self]
        rw [matchItems_star_det hrej]
        cases hd : s.dropWhile isAnsiParam with
        | nil => simp [matchItems_one_nil]
        | cons l t =>
          by_cases hl : isLetter l = true
          · simp [matchItems_one_cons, matchItems_nil, hl]; omega
          · simp [matchItems_one_cons, hl]
      · simp [he, hb]
    · simp [he]

theorem ansiSeqLen_pos {s : Str} {n : Nat} (h : ansiSeqLen s = some n) : 3 ≤ n := by
  match s with
  | [] => simp [ansiSeqLen] at h
  | [_] => simp [ansiSeqLen] at h
  | e :: b :: s =>
    simp only [ansiSeqLen] at h
    split at h
    · split at h
      · split at h
        · simp only [Option.some.injEq] at h; omega
        · simp at h
      · simp at h
    · simp at h

theorem ansiSeqLen_head {c : Char} {s : Str} {n : Nat} (h : ansiSeqLen (c :: s) = some n) :
    c.toNat = 27 := by
  match s with
  | [] => simp [ansiSeqLen] at h
  | b :: s =>
    simp only [ansiSeqLen] at h
    split at h
    · next hc => exact hc.1
    · simp at h

theorem replaceAllEmpty_ansi_cons (off : Nat) (c : Char) (s : Str) :
    replaceAllEmpty ansiRegex 0 off (c :: s) =
      match ansiSeqLen (c :: s) with
      | some n => replaceAllEmpty ansiRegex (n - 1) (off + 1) s
      | none => c :: replaceAllEmpty ansiRegex 0 (off + 1) s := by
  have h := matchAt_ansi_len off (c :: s)
  cases hm : matchAt ansiRegex off (c :: s) with
  | none =>
    rw [hm] at h
    simp only [Option.map_none'] at h
    simp [replaceAllEmpty, hm, ← h]
  | some r =>
    rw [hm] at h
    simp only [Option.map_some'] at h
    have h3 := ansiSeqLen_pos h.symm
    obtain ⟨n, hn⟩ : ∃ n, r.len = n + 1 := ⟨r.len - 1, by omega⟩
    simp [replaceAllEmpty, hm, ← h, hn]

theorem replaceAllEmpty_length_le (re : List Item) :
    ∀ (s : Str) (skip off : Nat), (replaceAllEmpty re skip off s).length ≤ s.length := by
  intro s
  induction s with
  | nil => intro skip off; simp [replaceAllEmpty]
  | cons c s ih =>
    intro skip off
    cases skip with
    | succ k =>
      simp only [replaceAllEmpty, List.length_cons]
      exact Nat.le_succ_of_le (ih k (off + 1))
    | zero =>
      simp only [replaceAllEmpty, List.length_cons]
      split
      · split
        · simp only [List.length_cons]; exact Nat.succ_le_succ (ih 0 (off + 1))
        · exact Nat.le_succ_of_le (ih _ (off + 1))
      · simp only [List.length_cons]; exact Nat.succ_le_succ (ih 0 (off + 1))

theorem replaceAllEmpty_ansi_fixed :
    ∀ (s : Str) (off : Nat), containsAnsiSeq s = false →
      replaceAllEmpty ansiRegex 0 off s = s := by
  intro s
  induction s with
  | nil => intro off _; rfl
  | cons c s ih =>
    intro off h
    simp only [containsAnsiSeq, Bool.or_eq_false_iff] at h
    rw [replaceAllEmpty_ansi_cons]
    cases hl : ansiSeqLen (c :: s) with
    | none => simp [ih (off + 1) h.2]
    | some n => simp [hl] at h

theorem replaceAllEmpty_ansi_shorter :
    ∀ (s : Str) (off : Nat), containsAnsiSeq s = true →
      (replaceAllEmpty ansiRegex 0 off s).length < s.length := by
  intro s
  induction s with
  | nil => intro off h; simp [containsAnsiSeq] at h
  | cons c s ih =>
    intro off h
    rw [replaceAllEmpty_ansi_cons]
    cases hl : ansiSeqLen (c :: s) with
    | none =>
      simp only [containsAnsiSeq, hl, Option.isSome_none, Bool.false_or] at h
      simp only [List.length_cons]
      exact Nat.succ_lt_succ (ih (off + 1) h)
    | some n =>
      simp only [List.length_cons]
      exact Nat.lt_succ_of_le (replaceAllEmpty_length_le _ s _ _)

theorem replaceAllEmpty_ansi_no_esc :
    ∀ (s : Str) (skip off : Nat), everyEscOpensSeq s = true →
      ∀ c ∈ replaceAllEmpty ansiRegex skip off s, c.toNat ≠ 27 := by
  intro s
  induction s with
  | nil => intro skip off _ c hc; simp [replaceAllEmpty] at hc
  | cons d s ih =>
    intro skip off h c hc
    simp only [everyEscOpensSeq, Bool.and_eq_true, Bool.or_eq_true, Bool.not_eq_true',
      decide_eq_false_iff_not] at h
    cases skip with
    | succ k =>
      simp only [replaceAllEmpty] at hc
      exact ih k (off + 1) h.2 c hc
    | zero =>
      rw [replaceAllEmpty_ansi_cons] at hc
      cases hl : ansiSeqLen (d :: s) with
      | none =>
        simp only [hl, List.mem_cons] at hc
        rcases hc with rfl | hc
        · rcases h.1 with h1 | h1
          · exact h1
          · simp [hl] at h1
        · exact ih 0 (off + 1) h.2 c hc
      | some n =>
        simp only [hl] at hc
        exact ih _ (off + 1) h.2 c hc

theorem containsAnsiSeq_of_no_esc :
    ∀ (s : Str), (∀ c ∈ s, c.toNat ≠ 27) → containsAnsiSeq s = false := by
  intro s
  induction s with
  | nil => intro _; rfl
  | cons c s ih =>
    intro h
    simp only [containsAnsiSeq, Bool.or_eq_false_iff]
    refine ⟨?_, ih fun d hd => h d (List.mem_cons_of_mem _ hd)⟩
    cases hl : ansiSeqLen (c :: s) with
    | none => rfl
    | some n => exact absurd (ansiSeqLen_head hl) (h c (List.mem_cons_self _ _))

/-- C2, as stated, fails: one pass over ESC ESC `[0m[0m` removes the inner sequence and
leaves ESC `[0m`, which a second pass removes. -/
theorem stripAnsi_not_idempotent :
    stripAnsi (stripAnsi "\x1b\x1b[0m[0m".toList) ≠ stripAnsi "\x1b\x1b[0m[0m".toList ∧
      containsAnsiSeq (stripAnsi "\x1b\x1b[0m[0m".toList) = true := by
  decide

/-- C2, amended: a second pass of `stripAnsi` changes nothing exactly when the first
output contains no escape sequence, and that is so for every text in which each ESC
character begins an escape sequence (the output then holds no ESC at all). -/
theorem stripAnsi_idempotent_of_everyEscOpensSeq (s : Str) :
    (stripAnsi (stripAnsi s) = stripAnsi s ↔ containsAnsiSeq (stripAnsi s) = false) ∧
    (everyEscOpensSeq s = true →
      (∀ c ∈ stripAnsi s, c.toNat ≠ 27) ∧ containsAnsiSeq (stripAnsi s) = false ∧
        stripAnsi (stripAnsi s) = stripAnsi s) := by
  refine ⟨⟨fun h => ?_, fun h => replaceAllEmpty_ansi_fixed _ 0 h⟩, fun h => ?_⟩
  · cases hc : containsAnsiSeq (stripAnsi s) with
    | false => rfl
    | true =>
      have hlt := replaceAllEmpty_ansi_shorter (stripAnsi s) 0 hc
      have heq : (stripAnsi (stripAnsi s)).length = (stripAnsi s).length := by rw [h]
      exact absurd heq (Nat.ne_of_lt hlt)
  · have h1 := replaceAllEmpty_ansi_no_esc s 0 0 h
    have h2 := containsAnsiSeq_of_no_esc _ h1
    exact ⟨h1, h2, replaceAllEmpty_ansi_fixed _ 0 h2⟩

theorem stripAnsi_idempotent_witness :
    everyEscOpensSeq "a\x1b[31mb\x1b[0m".toList = true ∧
      stripAnsi (stripAnsi "a\x1b[31mb\x1b[0m".toList) = stripAnsi "a\x1b[31mb\x1b[0m".toList :=
  ⟨by decide,
   ((stripAnsi_idempotent_of_everyEscOpensSeq "a\x1b[31mb\x1b[0m".toList).2 (by decide)).2.2⟩

/-! ## `tsErrorRegex` and `parseErrorLine` -/

theorem isChar_iff (d c : Char) : isChar d c = true ↔ c = d := by
  simp only [isChar, isCode, decide_eq_true_eq]
  constructor
  · intro h
    rw [← Char.ofNat_toNat c, ← Char.ofNat_toNat d, h]
  · intro h; rw [h]

theorem matchItems_lit_append (ws : Str) (its : List Item) :
    ∀ (off : Nat) (t grp : Str) (caps : List Str) (len : Nat),
      matchItems (ws.map (fun d => Item.one (isChar d)) ++ its) ⟨off, ws ++ t, grp, caps, len⟩ =
        matchItems its ⟨off + ws.length, t, ws.reverse ++ grp, caps, len + ws.length⟩ := by
  induction ws with
  | nil => intro off t grp caps len; rfl
  | cons d ws ih =>
    intro off t grp caps len
    have e1 : off + 1 + ws.length = off + (ws.length + 1) := by omega
    have e2 : len + 1 + ws.length = len + (ws.length + 1) := by omega
    simp only [List.map_cons, List.cons_append, matchItems_one_cons, (isChar_iff d d).2 rfl,
      if_true, ih, List.length_cons, List.reverse_cons, List.append_assoc,
      List.singleton_append, List.nil_append, e1, e2]

theorem matchItems_lit_some (ws : Str) (its : List Item) :
    ∀ (off : Nat) (s grp : Str) (caps : List Str) (len : Nat) (r : Cur),
      matchItems (ws.map (fun d => Item.one (isChar d)) ++ its) ⟨off, s, grp, caps, len⟩ =
        some r →
      ∃ t, s = ws ++ t ∧
        matchItems its ⟨off + ws.length, t, ws.reverse ++ grp, caps, len + ws.length⟩ =
          some r := by
  induction ws with
  | nil => intro off s grp caps len r h; exact ⟨s, rfl, h⟩
  | cons d ws ih =>
    intro off s grp caps len r h
    cases s with
    | nil => simp [matchItems_one_nil] at h
    | cons c s =>
      simp only [List.map_cons, List.cons_append, matchItems_one_cons] at h
      by_cases hc : isChar d c = true
      · rw [if_pos hc] at h
        obtain ⟨t, ht, hm⟩ := ih _ _ _ _ _ _ h
        have e1 : off + 1 + ws.length = off + (ws.length + 1) := by omega
        have e2 : len + 1 + ws.length = len + (ws.length + 1) := by omega
        have hcd := (isChar_iff d c).1 hc
        subst hcd
        refine ⟨t, ?_, ?_⟩
        · rw [ht]; rfl
        · simpa [e1, e2] using hm
      · rw [if_neg hc] at h; simp at h

theorem matchItems_one_some {p : Char → Bool} {its : List Item} {off : Nat} {s grp : Str}
    {caps : List Str} {len : Nat} {r : Cur}
    (h : matchItems (.one p :: its) ⟨off, s, grp, caps, len⟩ = some r) :
    ∃ c t, s = c :: t ∧ p c = true ∧
      matchItems its ⟨off + 1, t, c :: grp, caps, len + 1⟩ = some r := by
  cases s with
  | nil => simp [matchItems_one_nil] at h
  | cons c t =>
    rw [matchItems_one_cons] at h
    by_cases hc : p c = true
    · rw [if_pos hc] at h; exact ⟨c, t, rfl, hc, h⟩
    · rw [if_neg hc] at h; simp at h

theorem isRun_iff (p : Char → Bool) (s : Str) :
    isRun p s = true ↔ s ≠ [] ∧ ∀ c ∈ s, p c = true := by
  cases s <;> simp [isRun]

theorem takeWhile_run_append {p : Char → Bool} {u : Str} (hu : ∀ c ∈ u, p c = true)
    (d : Char) (t : Str) (hd : p d = false) :
    (u ++ d :: t).takeWhile p = u ∧ (u ++ d :: t).dropWhile p = d :: t := by
  induction u with
  | nil => simp [hd]
  | cons c u ih =>
    have hc := hu c (List.mem_cons_self _ _)
    have := ih fun x hx => hu x (List.mem_cons_of_mem _ hx)
    simp [hc, this.1, this.2]

theorem matchItems_plus_some {p : Char → Bool} {its : List Item}
    (h : Rejects (matchItems its) p) {off : Nat} {s grp : Str} {caps : List Str} {len : Nat}
    {r : Cur} (hm : matchItems (.plus p :: its) ⟨off, s, grp, caps, len⟩ = some r) :
    ∃ u t, s = u ++ t ∧ isRun p u = true ∧
      matchItems its ⟨off + u.length, t, u.reverse ++ grp, caps, len + u.length⟩ = some r := by
  rw [matchItems_plus_det h] at hm
  by_cases he : s.takeWhile p = []
  · rw [if_pos he] at hm; simp at hm
  · rw [if_neg he] at hm
    refine ⟨s.takeWhile p, s.dropWhile p, (List.takeWhile_append_dropWhile p s).symm, ?_, hm⟩
    rw [isRun_iff]
    exact ⟨he, fun c hc => (List.mem_takeWhile_imp hc)⟩

theorem matchItems_plus_run {p : Char → Bool} {its : List Item}
    (h : Rejects (matchItems its) p) (off : Nat) {u : Str} (hu : isRun p u = true) (d : Char)
    (t : Str) (hd : p d = false) (grp : Str) (caps : List Str) (len : Nat) :
    matchItems (.plus p :: its) ⟨off, u ++ d :: t, grp, caps, len⟩ =
      matchItems its ⟨off + u.length, d :: t, u.reverse ++ grp, caps, len + u.length⟩ := by
  rw [isRun_iff] at hu
  have ht := takeWhile_run_append hu.2 d t hd
  rw [matchItems_plus_det h, ht.1, ht.2, if_neg hu.1]

theorem rejects_lit {p : Char → Bool} (w : Str) (its : List Item) (d : Char) (ws : Str)
    (hw : w = d :: ws) (hd : p d = false) :
    Rejects (matchItems (w.map (fun d => Item.one (isChar d)) ++ its)) p := by
  subst hw
  apply rejects_one
  intro c hc
  cases h : isChar d c with
  | false => rfl
  | true =>
    have hcd := (isChar_iff d c).1 h
    subst hcd
    rw [hd] at hc
    cases hc

theorem matchItems_plus_run_lit {p : Char → Bool} {its : List Item}
    (h : Rejects (matchItems its) p) (off : Nat) {u : Str} (hu : isRun p u = true) (w : Str)
    (d : Char) (ws : Str) (hw : w = d :: ws) (hd : p d = false) (t grp : Str)
    (caps : List Str) (len : Nat) :
    matchItems (.plus p :: its) ⟨off, u ++ (w ++ t), grp, caps, len⟩ =
      matchItems its ⟨off + u.length, w ++ t, u.reverse ++ grp, caps, len + u.length⟩ := by
  subst hw
  exact matchItems_plus_run h off hu d (ws ++ t) hd grp caps len

theorem tsErrorRegex_eq :
    tsErrorRegex =
      .bol :: .gopen :: .plus isPathChar :: .gclose ::
        ("(".toList.map (fun d => Item.one (isChar d)) ++
        (.gopen :: .plus isDigit :: .gclose ::
        (",".toList.map (fun d => Item.one (isChar d)) ++
        (.gopen :: .plus isDigit :: .gclose ::
        ("):".toList.map (fun d => Item.one (isChar d)) ++
        (.one isReSpace ::
        ("error".toList.map (fun d => Item.one (isChar d)) ++
        (.one isReSpace ::
        ("TS".toList.map (fun d => Item.one (isChar d)) ++
        (.plus isDigit ::
        (":".toList.map (fun d => Item.one (isChar d)) ++ []))))))))))) := rfl

theorem tsErrorRegex_sound {line : Str} {off : Nat} {r : Cur}
    (h : matchAt tsErrorRegex off line = some r) :
    off = 0 ∧ ∃ (path ln col : Str) (w1 w2 : Char) (code tail : Str),
      line = diagnosticText path ln col w1 w2 code tail ∧
      isRun isPathChar path = true ∧ isRun isDigit ln = true ∧ isRun isDigit col = true ∧
      isReSpace w1 = true ∧ isReSpace w2 = true ∧ isRun isDigit code = true ∧
      r.caps = [path, ln, col] ∧ r.rest = tail ∧ r.len + tail.length = line.length := by
  rw [matchAt, tsErrorRegex_eq, matchItems_bol] at h
  by_cases ho : off = 0
  swap
  · rw [if_neg ho] at h; simp at h
  subst ho
  refine ⟨rfl, ?_⟩
  rw [if_pos rfl, matchItems_gopen] at h
  obtain ⟨path, t1, rfl, hpath, h1⟩ :=
    matchItems_plus_some
      (rejects_gclose (rejects_lit "(".toList _ (Char.ofNat 40) [] rfl (by decide))) h
  clear h
  rw [matchItems_gclose] at h1
  obtain ⟨t2, rfl, h2⟩ := matchItems_lit_some _ _ _ _ _ _ _ _ h1
  clear h1
  rw [matchItems_gopen] at h2
  obtain ⟨ln, t3, rfl, hln, h3⟩ :=
    matchItems_plus_some
      (rejects_gclose (rejects_lit ",".toList _ (Char.ofNat 44) [] rfl (by decide))) h2
  clear h2
  rw [matchItems_gclose] at h3
  obtain ⟨t4, rfl, h4⟩ := matchItems_lit_some _ _ _ _ _ _ _ _ h3
  clear h3
  rw [matchItems_gopen] at h4
  obtain ⟨col, t5, rfl, hcol, h5⟩ :=
    matchItems_plus_some
      (rejects_gclose
        (rejects_lit "):".toList _ (Char.ofNat 41) [Char.ofNat 58] rfl (by decide))) h4
  clear h4
  rw [matchItems_gclose] at h5
  obtain ⟨t6, rfl, h6⟩ := matchItems_lit_some _ _ _ _ _ _ _ _ h5
  clear h5
  obtain ⟨w1, t7, rfl, hw1, h7⟩ := matchItems_one_some h6
  clear h6
  obtain ⟨t8, rfl, h8⟩ := matchItems_lit_some _ _ _ _ _ _ _ _ h7
  clear h7
  obtain ⟨w2, t9, rfl, hw2, h9⟩ := matchItems_one_some h8
  clear h8
  obtain ⟨t10, rfl, h10⟩ := matchItems_lit_some _ _ _ _ _ _ _ _ h9
  clear h9
  obtain ⟨code, t11, rfl, hcode, h11⟩ :=
    matchItems_plus_some (rejects_lit ":".toList _ (Char.ofNat 58) [] rfl (by decide)) h10
  clear h10
  obtain ⟨tail, rfl, h12⟩ := matchItems_lit_some _ _ _ _ _ _ _ _ h11
  clear h11
  rw [matchItems_nil] at h12
  simp only [Option.some.injEq] at h12
  subst h12
  refine ⟨path, ln, col, w1, w2, code, tail, rfl, hpath, hln, hcol, hw1, hw2, hcode, ?_, rfl, ?_⟩
  · simp
  · simp [diagnosticText]
    omega

theorem tsErrorRegex_complete {path ln col : Str} {w1 w2 : Char} {code : Str} (tail : Str)
    (hpath : isRun isPathChar path = true) (hln : isRun isDigit ln = true)
    (hcol : isRun isDigit col = true) (hw1 : isReSpace w1 = true) (hw2 : isReSpace w2 = true)
    (hcode : isRun isDigit code = true) :
    ∃ r, matchAt tsErrorRegex 0 (diagnosticText path ln col w1 w2 code tail) = some r ∧
      r.caps = [path, ln, col] := by
  rw [matchAt, tsErrorRegex_eq, matchItems_bol, if_pos rfl, matchItems_gopen, diagnosticText,
    matchItems_plus_run_lit
      (rejects_gclose (rejects_lit "(".toList _ (Char.ofNat 40) [] rfl (by decide))) _ hpath
      "(".toList (Char.ofNat 40) [] rfl (by decide),
    matchItems_gclose, matchItems_lit_append, matchItems_gopen,
    matchItems_plus_run_lit
      (rejects_gclose (rejects_lit ",".toList _ (Char.ofNat 44) [] rfl (by decide))) _ hln
      ",".toList (Char.ofNat 44) [] rfl (by decide),
    matchItems_gclose, matchItems_lit_append, matchItems_gopen,
    matchItems_plus_run_lit
      (rejects_gclose
        (rejects_lit "):".toList _ (Char.ofNat 41) [Char.ofNat 58] rfl (by decide))) _ hcol
      "):".toList (Char.ofNat 41) [Char.ofNat 58] rfl (by decide),
    matchItems_gclose, matchItems_lit_append, matchItems_one_cons, if_pos hw1,
    matchItems_lit_append, matchItems_one_cons, if_pos hw2, matchItems_lit_append,
    matchItems_plus_run_lit (rejects_lit ":".toList _ (Char.ofNat 58) [] rfl (by decide)) _
      hcode ":".toList (Char.ofNat 58) [] rfl (by decide),
    matchItems_lit_append, matchItems_nil]
  exact ⟨_, rfl, by simp⟩

theorem findFrom_tsErrorRegex_pos :
    ∀ (s : Str) (off : Nat), off ≠ 0 → findFrom tsErrorRegex off s = none := by
  intro s
  induction s with
  | nil =>
    intro off ho
    cases hm : matchAt tsErrorRegex off [] with
    | none => simp [findFrom, hm]
    | some r => exact absurd (tsErrorRegex_sound hm).1 ho
  | cons c s ih =>
    intro off ho
    cases hm : matchAt tsErrorRegex off (c :: s) with
    | none => simp [findFrom, hm, ih (off + 1) (Nat.succ_ne_zero off)]
    | some r => exact absurd (tsErrorRegex_sound hm).1 ho

theorem findStringSubmatch_tsErrorRegex (line : Str) :
    findStringSubmatch tsErrorRegex line =
      match matchAt tsErrorRegex 0 line with
      | some r => line.take r.len :: r.caps
      | none => [] := by
  cases line with
  | nil =>
    cases hm : matchAt tsErrorRegex 0 [] with
    | none => simp [findStringSubmatch, findFrom, hm]
    | some r => simp [findStringSubmatch, findFrom, hm]
  | cons c s =>
    cases hm : matchAt tsErrorRegex 0 (c :: s) with
    | none =>
      simp [findStringSubmatch, findFrom, hm, findFrom_tsErrorRegex_pos s 1 (by decide)]
    | some r => simp [findStringSubmatch, findFrom, hm]

theorem diagnosticText_ne_nil {path ln col : Str} {w1 w2 : Char} {code tail : Str}
    (hpath : isRun isPathChar path = true) :
    diagnosticText path ln col w1 w2 code tail ≠ [] := by
  rw [isRun_iff] at hpath
  intro h
  rw [diagnosticText, List.append_eq_nil] at h
  exact hpath.1 h.1

theorem parseErrorLine_of_match {line : Str} {r : Cur} {g1 g2 g3 : Str}
    (hm : matchAt tsErrorRegex 0 line = some r) (hc : r.caps = [g1, g2, g3]) :
    findStringSubmatch tsErrorRegex line = [line.take r.len, g1, g2, g3] ∧
      parseErrorLine line = (backslashToSlash g1, g2, true) := by
  have hf : findStringSubmatch tsErrorRegex line = [line.take r.len, g1, g2, g3] := by
    rw [findStringSubmatch_tsErrorRegex, hm]
    simp only [hc]
  refine ⟨hf, ?_⟩
  obtain ⟨_, path, ln, col, w1, w2, code, tail, hl, hpath, _⟩ := tsErrorRegex_sound hm
  have hne : line ≠ [] := by rw [hl]; exact diagnosticText_ne_nil hpath
  simp [parseErrorLine, hne, hf]

theorem parseErrorLine_of_no_match {line : Str}
    (hm : findStringSubmatch tsErrorRegex line = []) :
    parseErrorLine line = ([], [], false) := by
  simp [parseErrorLine, hm]

theorem findStringSubmatch_tsErrorRegex_cases (line : Str) :
    findStringSubmatch tsErrorRegex line = [] ∨
      ∃ (path ln col : Str) (w1 w2 : Char) (code tail whole : Str),
        line = diagnosticText path ln col w1 w2 code tail ∧
        isRun isPathChar path = true ∧ isRun isDigit ln = true ∧ isRun isDigit col = true ∧
        isReSpace w1 = true ∧ isReSpace w2 = true ∧ isRun isDigit code = true ∧
        findStringSubmatch tsErrorRegex line = [whole, path, ln, col] ∧
        whole ++ tail = line ∧
        parseErrorLine line = (backslashToSlash path, ln, true) := by
  cases hm : matchAt tsErrorRegex 0 line with
  | none => left; rw [findStringSubmatch_tsErrorRegex, hm]
  | some r =>
    right
    obtain ⟨_, path, ln, col, w1, w2, code, tail, hl, hpath, hln, hcol, hw1, hw2, hcode, hc,
      hrest, hlen⟩ := tsErrorRegex_sound hm
    obtain ⟨hf, hp⟩ := parseErrorLine_of_match hm hc
    refine ⟨path, ln, col, w1, w2, code, tail, line.take r.len, hl, hpath, hln, hcol, hw1, hw2,
      hcode, hf, ?_, hp⟩
    have hd : line.drop r.len = tail := by
      have h1 : line = (diagnosticText path ln col w1 w2 code []) ++ tail := by
        rw [hl]; simp [diagnosticText]
      have h2 : r.len = (diagnosticText path ln col w1 w2 code []).length := by
        have : line.length = (diagnosticText path ln col w1 w2 code []).length + tail.length := by
          rw [h1]; simp [diagnosticText]; omega
        omega
      rw [h2, h1]
      simp [diagnosticText]
    rw [← hd]
    exact List.take_append_drop _ _

theorem parseErrorLine_diagnosticText {path ln col : Str} {w1 w2 : Char} {code : Str}
    (tail : Str) (hpath : isRun isPathChar path = true) (hln : isRun isDigit ln = true)
    (hcol : isRun isDigit col = true) (hw1 : isReSpace w1 = true) (hw2 : isReSpace w2 = true)
    (hcode : isRun isDigit code = true) :
    parseErrorLine (diagnosticText path ln col w1 w2 code tail) =
      (backslashToSlash path, ln, true) := by
  obtain ⟨r, hm, hc⟩ := tsErrorRegex_complete tail hpath hln hcol hw1 hw2 hcode
  exact (parseErrorLine_of_match hm hc).2

theorem isPathChar_eq (c : Char) : isPathChar c = (isSpecPathChar c || isCode 95 c) := by
  rw [Bool.eq_iff_iff]
  simp only [isPathChar, isWord, isSpecPathChar, isCode, Bool.or_eq_true, decide_eq_true_eq]
  tauto

theorem backslashToSlash_no_backslash (s : Str) : ∀ c ∈ backslashToSlash s, c.toNat ≠ 92 := by
  intro c hc
  simp only [backslashToSlash, List.mem_map] at hc
  obtain ⟨d, _, hd⟩ := hc
  by_cases h : d.toNat = 92
  · rw [if_pos h] at hd
    rw [← hd]
    decide
  · rw [if_neg h] at hd
    rw [← hd]
    exact h

/-- C5: on every line that `tsErrorRegex` matches, `parseErrorLine` returns the first
capture group with each backslash turned into a slash (no backslash is left, every other
character stays in place), the second capture group as written, a non-empty run of ASCII
digits, and `true`; another column number in the line gives the same result. -/
theorem parseErrorLine_match (line : Str) (h : findStringSubmatch tsErrorRegex line ≠ []) :
    ∃ (whole g1 g2 g3 : Str) (w1 w2 : Char) (code tail : Str),
      findStringSubmatch tsErrorRegex line = [whole, g1, g2, g3] ∧
      line = diagnosticText g1 g2 g3 w1 w2 code tail ∧
      parseErrorLine line = (backslashToSlash g1, g2, true) ∧
      (∀ c ∈ backslashToSlash g1, c.toNat ≠ 92) ∧
      (backslashToSlash g1).length = g1.length ∧
      (∀ (i : Nat) (c : Char), g1[i]? = some c →
        (backslashToSlash g1)[i]? = some (if c.toNat = 92 then Char.ofNat 47 else c)) ∧
      isRun isDigit g2 = true ∧
      (∀ col, isRun isDigit col = true →
        parseErrorLine (diagnosticText g1 g2 col w1 w2 code tail) =
          (backslashToSlash g1, g2, true)) := by
  rcases findStringSubmatch_tsErrorRegex_cases line with h0 | h1
  · exact absurd h0 h
  · obtain ⟨path, ln, col, w1, w2, code, tail, whole, hl, hpath, hln, hcol, hw1, hw2, hcode,
      hf, _, hp⟩ := h1
    refine ⟨whole, path, ln, col, w1, w2, code, tail, hf, hl, hp,
      backslashToSlash_no_backslash path, ?_, ?_, hln, ?_⟩
    · simp [backslashToSlash]
    · intro i c hi
      simp [backslashToSlash, hi]
    · intro col2 hcol2
      exact parseErrorLine_diagnosticText tail hpath hln hcol2 hw1 hw2 hcode

theorem parseErrorLine_match_witness :
    findStringSubmatch tsErrorRegex "src\\app.ts(010,5): error TS2322: x".toList ≠ [] ∧
    ∃ (whole g1 g2 g3 : Str) (w1 w2 : Char) (code tail : Str),
      findStringSubmatch tsErrorRegex "src\\app.ts(010,5): error TS2322: x".toList =
        [whole, g1, g2, g3] ∧
      "src\\app.ts(010,5): error TS2322: x".toList = diagnosticText g1 g2 g3 w1 w2 code tail ∧
      parseErrorLine "src\\app.ts(010,5): error TS2322: x".toList =
        (backslashToSlash g1, g2, true) ∧
      (∀ c ∈ backslashToSlash g1, c.toNat ≠ 92) ∧
      (backslashToSlash g1).length = g1.length ∧
      (∀ (i : Nat) (c : Char), g1[i]? = some c →
        (backslashToSlash g1)[i]? = some (if c.toNat = 92 then Char.ofNat 47 else c)) ∧
      isRun isDigit g2 = true ∧
      (∀ col, isRun isDigit col = true →
        parseErrorLine (diagnosticText g1 g2 col w1 w2 code tail) =
          (backslashToSlash g1, g2, true)) :=
  ⟨by decide, parseErrorLine_match _ (by decide)⟩

/-- C6, as stated, fails: the line `a_b.ts(1,2): error TS1:` is matched although its
path holds an underscore, which is none of the characters the claim lists. -/
theorem parseErrorLine_underscore :
    ¬ ((parseErrorLine "a_b.ts(1,2): error TS1:".toList).2.2 = true ↔
        IsDiagnostic isSpecPathChar "a_b.ts(1,2): error TS1:".toList) := by
  intro h
  obtain ⟨path, ln, col, w1, w2, code, tail, hl, hpath, hln, hcol, hw1, hw2, hcode⟩ :=
    h.1 (by decide)
  have hpath2 : isRun isPathChar path = true := by
    rw [isRun_iff] at hpath ⊢
    refine ⟨hpath.1, fun c hc => ?_⟩
    rw [isPathChar_eq, hpath.2 c hc]
    rfl
  obtain ⟨r, hm, hc⟩ := tsErrorRegex_complete tail hpath2 hln hcol hw1 hw2 hcode
  rw [← hl] at hm
  have hd : (matchAt tsErrorRegex 0 "a_b.ts(1,2): error TS1:".toList).map Cur.caps =
      some ["a_b.ts".toList, "1".toList, "2".toList] := by decide
  rw [hm, Option.map_some', hc] at hd
  simp only [Option.some.injEq, List.cons.injEq, and_true] at hd
  rw [hd.1] at hpath
  revert hpath
  decide

/-- C6, amended: `parseErrorLine` reports a match exactly for the lines that begin with
a non-empty path over ASCII letters, ASCII digits, the underscore and `. / \ ~ @ % : -`,
followed by `(<digits>,<digits>):`, one whitespace character of `[\t\n\f\r ]`, `error`,
one such whitespace character and `TS<digits>:`; the text after that does not matter. -/
theorem parseErrorLine_isError_iff (line : Str) :
    (parseErrorLine line).2.2 = true ↔
      IsDiagnostic (fun c => isSpecPathChar c || isCode 95 c) line := by
  have hcls : (fun c => isSpecPathChar c || isCode 95 c) = isPathChar :=
    funext fun c => (isPathChar_eq c).symm
  rw [hcls]
  constructor
  · intro h
    rcases findStringSubmatch_tsErrorRegex_cases line with h0 | h1
    · rw [parseErrorLine_of_no_match h0] at h
      cases h
    · obtain ⟨path, ln, col, w1, w2, code, tail, _, hl, hpath, hln, hcol, hw1, hw2, hcode,
        _⟩ := h1
      exact ⟨path, ln, col, w1, w2, code, tail, hl, hpath, hln, hcol, hw1, hw2, hcode⟩
  · rintro ⟨path, ln, col, w1, w2, code, tail, hl, hpath, hln, hcol, hw1, hw2, hcode⟩
    rw [hl, parseErrorLine_diagnosticText tail hpath hln hcol hw1 hw2 hcode]

/-- C7: a line whose sanitized form is empty or is not matched by `tsErrorRegex` makes
`parseErrorLine` return two empty strings and `false`, and the iteration of the main
loop on it adds one to `processedErrorLines` and changes nothing else: the tally and
`actualErrorsFoundByRegex` stay as they were and no blame lookup is made. -/
theorem mainStep_no_match (w : World) (st : MainState) (rawLine : Str)
    (h : stripAnsi rawLine = [] ∨ findStringSubmatch tsErrorRegex (stripAnsi rawLine) = []) :
    parseErrorLine (stripAnsi rawLine) = ([], [], false) ∧
    (mainStep w st rawLine).authorErrors = st.authorErrors ∧
    (mainStep w st rawLine).actualErrorsFoundByRegex = st.actualErrorsFoundByRegex ∧
    (mainStep w st rawLine).blameCalls = st.blameCalls ∧
    (mainStep w st rawLine).processedErrorLines = st.processedErrorLines + 1 := by
  have hp : parseErrorLine (stripAnsi rawLine) = ([], [], false) := by
    rcases h with h | h
    · simp [parseErrorLine, h]
    · exact parseErrorLine_of_no_match h
  simp [mainStep, hp]

theorem mainStep_no_match_witness :
    (stripAnsi "Compiling project...".toList = [] ∨
      findStringSubmatch tsErrorRegex (stripAnsi "Compiling project...".toList) = []) ∧
    (mainStep ⟨fun _ _ => false, fun _ _ _ => .ok []⟩ MainState.init
      "Compiling project...".toList).authorErrors = [] ∧
    (mainStep ⟨fun _ _ => false, fun _ _ _ => .ok []⟩ MainState.init
      "Compiling project...".toList).actualErrorsFoundByRegex = 0 ∧
    (mainStep ⟨fun _ _ => false, fun _ _ _ => .ok []⟩ MainState.init
      "Compiling project...".toList).processedErrorLines = 1 :=
  ⟨by decide,
   (mainStep_no_match ⟨fun _ _ => false, fun _ _ _ => .ok []⟩ MainState.init
      "Compiling project...".toList (by decide)).2.1,
   ((mainStep_no_match ⟨fun _ _ => false, fun _ _ _ => .ok []⟩ MainState.init
      "Compiling project...".toList (by decide)).2.2.1),
   ((mainStep_no_match ⟨fun _ _ => false, fun _ _ _ => .ok []⟩ MainState.init
      "Compiling project...".toList (by decide)).2.2.2.2)⟩

/-! ## `gitAuthorRegex` and the scan of the blame output -/

theorem matchItems_plus_none {p : Char → Bool} {its : List Item} (off : Nat) {s : Str}
    (grp : Str) (caps : List Str) (len : Nat) (h : s.takeWhile p = []) :
    matchItems (.plus p :: its) ⟨off, s, grp, caps, len⟩ = none := by
  cases s with
  | nil => rfl
  | cons c s =>
    by_cases hp : p c = true
    · simp [hp] at h
    · show (if p c = true then starK p (matchItems its) s (off + 1) (c :: grp) caps (len + 1)
        else none) = none
      rw [if_neg hp]

theorem matchItems_plus_greedy {p : Char → Bool} {its : List Item} (off : Nat) {s : Str}
    (grp : Str) (caps : List Str) (len : Nat) {r : Cur} (hne : s.takeWhile p ≠ [])
    (h : matchItems its ⟨off + (s.takeWhile p).length, s.dropWhile p,
      (s.takeWhile p).reverse ++ grp, caps, len + (s.takeWhile p).length⟩ = some r) :
    matchItems (.plus p :: its) ⟨off, s, grp, caps, len⟩ = some r := by
  cases s with
  | nil => simp at hne
  | cons c s =>
    by_cases hp : p c = true
    · show (if p c = true then starK p (matchItems its) s (off + 1) (c :: grp) caps (len + 1)
        else none) = some r
      rw [if_pos hp]
      apply starK_greedy
      have e1 : off + 1 + (s.takeWhile p).length = off + ((s.takeWhile p).length + 1) := by
        omega
      have e2 : len + 1 + (s.takeWhile p).length = len + ((s.takeWhile p).length + 1) := by
        omega
      simpa [hp, e1, e2] using h
    · simp [hp] at hne

theorem matchItems_group_star (p : Char → Bool) (off : Nat) (s grp : Str) (caps : List Str)
    (len : Nat) :
    matchItems [.gopen, .star p, .gclose] ⟨off, s, grp, caps, len⟩ =
      some ⟨off + (s.takeWhile p).length, s.dropWhile p, (s.takeWhile p).reverse ++ [],
        caps ++ [((s.takeWhile p).reverse ++ []).reverse], len + (s.takeWhile p).length⟩ := by
  rw [matchItems_gopen]
  show starK p (matchItems [.gclose]) s off [] caps len = _
  apply starK_greedy
  rfl

theorem gitAuthorRegex_eq :
    gitAuthorRegex =
      .bol :: ("author".toList.map (fun d => Item.one (isChar d)) ++
        [.plus isReSpace, .gopen, .star isNotNewline, .gclose]) := rfl

theorem gitAuthorRegex_match (off : Nat) (l : Str) :
    (matchAt gitAuthorRegex off l = none ∧
      (off ≠ 0 ∨ ¬ ∃ t, l = "author".toList ++ t ∧ t.takeWhile isReSpace ≠ [])) ∨
    ∃ r t, matchAt gitAuthorRegex off l = some r ∧ off = 0 ∧ l = "author".toList ++ t ∧
      t.takeWhile isReSpace ≠ [] ∧
      r.caps = [(t.dropWhile isReSpace).takeWhile isNotNewline] := by
  rw [matchAt, gitAuthorRegex_eq, matchItems_bol]
  by_cases ho : off = 0
  swap
  · left; rw [if_neg ho]; exact ⟨rfl, Or.inl ho⟩
  subst ho
  rw [if_pos rfl]
  cases hm : matchItems ("author".toList.map (fun d => Item.one (isChar d)) ++
      [.plus isReSpace, .gopen, .star isNotNewline, .gclose]) ⟨0, l, [], [], 0⟩ with
  | none =>
    left
    refine ⟨rfl, Or.inr ?_⟩
    rintro ⟨t, rfl, ht⟩
    rw [matchItems_lit_append,
      matchItems_plus_greedy _ _ _ _ ht (matchItems_group_star _ _ _ _ _ _)] at hm
    cases hm
  | some r =>
    right
    obtain ⟨t, rfl, h1⟩ := matchItems_lit_some _ _ _ _ _ _ _ _ hm
    by_cases ht : t.takeWhile isReSpace = []
    · rw [matchItems_plus_none _ _ _ _ ht] at h1
      cases h1
    · rw [matchItems_plus_greedy _ _ _ _ ht (matchItems_group_star _ _ _ _ _ _)] at h1
      simp only [Option.some.injEq] at h1
      refine ⟨r, t, rfl, rfl, rfl, ht, ?_⟩
      rw [← h1]
      simp

theorem findFrom_bol_pos (its : List Item) :
    ∀ (s : Str) (off : Nat), off ≠ 0 → findFrom (.bol :: its) off s = none := by
  intro s
  induction s with
  | nil =>
    intro off ho
    simp [findFrom, matchAt, matchItems_bol, ho]
  | cons c s ih =>
    intro off ho
    simp [findFrom, matchAt, matchItems_bol, ho, ih (off + 1) (Nat.succ_ne_zero off)]

theorem findStringSubmatch_bol (its : List Item) (l : Str) :
    findStringSubmatch (.bol :: its) l =
      match matchAt (.bol :: its) 0 l with
      | some r => l.take r.len :: r.caps
      | none => [] := by
  cases l with
  | nil =>
    cases hm : matchAt (.bol :: its) 0 [] with
    | none => simp [findStringSubmatch, findFrom, hm]
    | some r => simp [findStringSubmatch, findFrom, hm]
  | cons c s =>
    cases hm : matchAt (.bol :: its) 0 (c :: s) with
    | none => simp [findStringSubmatch, findFrom, hm, findFrom_bol_pos its s 1 (by decide)]
    | some r => simp [findStringSubmatch, findFrom, hm]

theorem beginsWithAuthorMarker_iff (l : Str) :
    beginsWithAuthorMarker l = true ↔
      ∃ t, l = "author".toList ++ t ∧ t.takeWhile isReSpace ≠ [] := by
  constructor
  · intro h
    unfold beginsWithAuthorMarker at h
    cases hd : l.drop 6 with
    | nil => rw [hd] at h; cases h
    | cons c t =>
      rw [hd] at h
      simp only [Bool.and_eq_true, decide_eq_true_eq] at h
      refine ⟨c :: t, ?_, ?_⟩
      · rw [← h.1, ← hd]; exact (List.take_append_drop 6 l).symm
      · simp [h.2]
  · rintro ⟨t, rfl, ht⟩
    cases t with
    | nil => simp at ht
    | cons c t =>
      by_cases hc : isReSpace c = true
      · have hd : ("author".toList ++ c :: t).drop 6 = c :: t := rfl
        have htk : ("author".toList ++ c :: t).take 6 = "author".toList := rfl
        unfold beginsWithAuthorMarker
        rw [hd, htk]
        simp [hc]
      · simp [hc] at ht

theorem dropWhile_dropWhile_of_imp {p q : Char → Bool} (h : ∀ c, q c = true → p c = true) :
    ∀ s : Str, (s.dropWhile q).dropWhile p = s.dropWhile p := by
  intro s
  induction s with
  | nil => rfl
  | cons c s ih =>
    by_cases hq : q c = true
    · simp [hq, h c hq, ih]
    · simp [hq]

theorem isSpace_of_isReSpace (c : Char) (h : isReSpace c = true) : isSpace c = true := by
  simp only [isReSpace, Bool.or_eq_true, decide_eq_true_eq] at h
  simp only [isSpace, Bool.or_eq_true, Bool.and_eq_true, decide_eq_true_eq]
  omega

theorem takeWhile_isNotNewline {s : Str} (h : ∀ c ∈ s, c.toNat ≠ 10) :
    s.takeWhile isNotNewline = s := by
  induction s with
  | nil => rfl
  | cons c s ih =>
    have hc : isNotNewline c = true := by
      simp [isNotNewline, h c (List.mem_cons_self _ _)]
    simp [hc, ih fun d hd => h d (List.mem_cons_of_mem _ hd)]

theorem findStringSubmatch_gitAuthorRegex (l : Str) (hnl : ∀ c ∈ l, c.toNat ≠ 10) :
    (beginsWithAuthorMarker l = false ∧ findStringSubmatch gitAuthorRegex l = []) ∨
    (beginsWithAuthorMarker l = true ∧ ∃ whole cap,
      findStringSubmatch gitAuthorRegex l = [whole, cap] ∧
        trimSpace cap = trimSpace (l.drop 6)) := by
  have hf := findStringSubmatch_bol ("author".toList.map (fun d => Item.one (isChar d)) ++
        [.plus isReSpace, .gopen, .star isNotNewline, .gclose]) l
  rw [← gitAuthorRegex_eq] at hf
  rcases gitAuthorRegex_match 0 l with ⟨hm, hn⟩ | ⟨r, t, hm, _, hl, ht, hc⟩
  · left
    rw [hm] at hf
    refine ⟨?_, hf⟩
    cases hb : beginsWithAuthorMarker l with
    | false => rfl
    | true =>
      rcases hn with hn | hn
      · exact absurd rfl hn
      · exact absurd ((beginsWithAuthorMarker_iff l).1 hb) hn
  · right
    rw [hm] at hf
    refine ⟨(beginsWithAuthorMarker_iff l).2 ⟨t, hl, ht⟩, l.take r.len,
      (t.dropWhile isReSpace).takeWhile isNotNewline, ?_, ?_⟩
    · rw [hf]; simp only [hc]
    · have hd : l.drop 6 = t := by rw [hl]; rfl
      have hnt : ∀ c ∈ t.dropWhile isReSpace, c.toNat ≠ 10 := by
        intro c hc
        apply hnl c
        rw [hl]
        exact List.mem_append_right _ ((List.dropWhile_suffix _).subset hc)
      rw [hd, takeWhile_isNotNewline hnt]
      unfold trimSpace
      rw [dropWhile_dropWhile_of_imp isSpace_of_isReSpace]

theorem firstAuthor_cons (l : Str) (rest : List Str) (hnl : ∀ c ∈ l, c.toNat ≠ 10) :
    firstAuthor (l :: rest) =
      if beginsWithAuthorMarker l = true then some (trimSpace (l.drop 6))
      else firstAuthor rest := by
  rcases findStringSubmatch_gitAuthorRegex l hnl with ⟨hb, hf⟩ | ⟨hb, whole, cap, hf, ht⟩
  · simp [firstAuthor, hf, hb]
  · simp [firstAuthor, hf, hb, ht]

theorem splitLinesFrom_no_newline :
    ∀ (s cur : Str), (∀ c ∈ cur, c.toNat ≠ 10) →
      ∀ l ∈ splitLinesFrom cur s, ∀ c ∈ l, c.toNat ≠ 10 := by
  intro s
  induction s with
  | nil =>
    intro cur hcur l hl c hc
    by_cases he : cur = []
    · simp [splitLinesFrom, he] at hl
    · simp only [splitLinesFrom, if_neg he, List.mem_singleton] at hl
      subst hl
      exact hcur c (List.mem_reverse.1 hc)
  | cons d s ih =>
    intro cur hcur l hl c hc
    by_cases hd : d.toNat = 10
    · simp only [splitLinesFrom, if_pos hd, List.mem_cons] at hl
      rcases hl with rfl | hl
      · exact hcur c (List.mem_reverse.1 hc)
      · exact ih [] (fun _ h => absurd h (List.not_mem_nil _)) l hl c hc
    · simp only [splitLinesFrom, if_neg hd] at hl
      refine ih (d :: cur) (fun x hx => ?_) l hl c hc
      rcases List.mem_cons.1 hx with rfl | hx
      · exact hd
      · exact hcur x hx

theorem splitLines_no_newline (out : Str) :
    ∀ l ∈ splitLines out, ∀ c ∈ l, c.toNat ≠ 10 :=
  splitLinesFrom_no_newline out [] fun _ h => absurd h (List.not_mem_nil _)

theorem mem_of_mem_dropCR {l : Str} {c : Char} (h : c ∈ dropCR l) : c ∈ l := by
  unfold dropCR at h
  split at h
  · exact List.mem_of_mem_dropLast h
  · exact h

theorem takeWhile_append_of_all {α : Type} (p : α → Bool) :
    ∀ (pre rest : List α), (∀ x ∈ pre, p x = true) →
      (pre ++ rest).takeWhile p = pre ++ rest.takeWhile p := by
  intro pre
  induction pre with
  | nil => intro rest _; rfl
  | cons a pre ih =>
    intro rest h
    have ha := h a (List.mem_cons_self _ _)
    simp [ha, ih rest fun x hx => h x (List.mem_cons_of_mem _ hx)]

theorem firstAuthor_append_none :
    ∀ (pre rest : List Str),
      (∀ x ∈ pre, (∀ c ∈ x, c.toNat ≠ 10) ∧ beginsWithAuthorMarker x = false) →
      firstAuthor (pre ++ rest) = firstAuthor rest := by
  intro pre
  induction pre with
  | nil => intro rest _; rfl
  | cons a pre ih =>
    intro rest h
    have ha := h a (List.mem_cons_self _ _)
    rw [List.cons_append, firstAuthor_cons a _ ha.1, ha.2]
    simp only [Bool.false_eq_true, if_false]
    exact ih rest fun x hx => h x (List.mem_cons_of_mem _ hx)

theorem firstAuthor_tokens_none (ls : List Str)
    (hnl : ∀ l ∈ ls, ∀ c ∈ l, c.toNat ≠ 10)
    (h : ∀ x ∈ ls, beginsWithAuthorMarker (dropCR x) = false) :
    firstAuthor (ls.map dropCR) = none := by
  have := firstAuthor_append_none (ls.map dropCR) [] (by
    intro x hx
    obtain ⟨y, hy, rfl⟩ := List.mem_map.1 hx
    exact ⟨fun c hc => hnl y hy c (mem_of_mem_dropCR hc), h y hy⟩)
  rw [List.append_nil] at this
  rw [this]
  rfl

theorem scanBlameOutput_cases (filePath lineNumber out : Str) :
    (∀ pre l post, splitLines out = pre ++ l :: post →
      (∀ x ∈ pre, utf8Len x < maxScanTokenSize ∧ beginsWithAuthorMarker (dropCR x) = false) →
      utf8Len l < maxScanTokenSize → beginsWithAuthorMarker (dropCR l) = true →
      scanBlameOutput filePath lineNumber out = (trimSpace ((dropCR l).drop 6), none)) ∧
    ((∀ x ∈ splitLines out,
        utf8Len x < maxScanTokenSize ∧ beginsWithAuthorMarker (dropCR x) = false) →
      scanBlameOutput filePath lineNumber out =
        ("unknown_author_not_found_in_blame".toList, none)) ∧
    (∀ pre l post, splitLines out = pre ++ l :: post →
      (∀ x ∈ pre, utf8Len x < maxScanTokenSize ∧ beginsWithAuthorMarker (dropCR x) = false) →
      maxScanTokenSize ≤ utf8Len l →
      scanBlameOutput filePath lineNumber out =
        ("error_scanning_blame_output".toList, some (.scanFailed filePath lineNumber))) := by
  have hnl := splitLines_no_newline out
  refine ⟨?_, ?_, ?_⟩
  · intro pre l post hs hpre hl hm
    rw [hs] at hnl
    have hfit : ∀ x ∈ pre, fitsToken x = true := fun x hx => by
      simp [fitsToken, (hpre x hx).1]
    have hfl : fitsToken l = true := by simp [fitsToken, hl]
    have htok : (scanLines out).1 =
        pre.map dropCR ++ dropCR l :: (post.takeWhile fitsToken).map dropCR := by
      simp only [scanLines, hs]
      rw [takeWhile_append_of_all fitsToken pre _ hfit]
      simp [hfl]
    have hfirst : firstAuthor (scanLines out).1 = some (trimSpace ((dropCR l).drop 6)) := by
      rw [htok, firstAuthor_append_none, firstAuthor_cons, if_pos hm]
      · intro c hc
        exact hnl l (by simp) c (mem_of_mem_dropCR hc)
      · intro x hx
        obtain ⟨y, hy, rfl⟩ := List.mem_map.1 hx
        exact ⟨fun c hc => hnl y (by simp [hy]) c (mem_of_mem_dropCR hc), (hpre y hy).2⟩
    simp only [scanBlameOutput, hfirst]
  · intro h
    have hfit : ∀ x ∈ splitLines out, fitsToken x = true := fun x hx => by
      simp [fitsToken, (h x hx).1]
    have htk : (splitLines out).takeWhile fitsToken = splitLines out := by
      have := takeWhile_append_of_all fitsToken (splitLines out) [] hfit
      simpa using this
    have hfirst : firstAuthor (scanLines out).1 = none := by
      simp only [scanLines, htk]
      exact firstAuthor_tokens_none _ hnl fun x hx => (h x hx).2
    have herr : (scanLines out).2 = false := by
      simp only [scanLines, List.any_eq_false, Bool.not_eq_true', Bool.not_eq_false]
      intro x hx
      simpa using hfit x hx
    simp only [scanBlameOutput, hfirst, herr]
    rfl
  · intro pre l post hs hpre hl
    rw [hs] at hnl
    have hfit : ∀ x ∈ pre, fitsToken x = true := fun x hx => by
      simp [fitsToken, (hpre x hx).1]
    have hfl : fitsToken l = false := by simp [fitsToken, hl]
    have htk : (splitLines out).takeWhile fitsToken = pre := by
      rw [hs, takeWhile_append_of_all fitsToken pre _ hfit]
      simp [hfl]
    have hfirst : firstAuthor (scanLines out).1 = none := by
      simp only [scanLines, htk]
      exact firstAuthor_tokens_none _ (fun y hy => hnl y (by simp [hy])) fun x hx =>
        (hpre x hx).2
    have herr : (scanLines out).2 = true := by
      simp only [scanLines, hs, List.any_append, List.any_cons, hfl]
      simp
    simp only [scanBlameOutput, hfirst, herr]
    rfl

theorem splitLinesFrom_of_no_newline :
    ∀ (s cur : Str), (∀ c ∈ s, c.toNat ≠ 10) →
      splitLinesFrom cur s =
        if s.reverse ++ cur = [] then [] else [(s.reverse ++ cur).reverse] := by
  intro s
  induction s with
  | nil => intro cur _; simp [splitLinesFrom]
  | cons d s ih =>
    intro cur h
    have hd := h d (List.mem_cons_self _ _)
    rw [splitLinesFrom, if_neg hd, ih (d :: cur) fun c hc => h c (List.mem_cons_of_mem _ hc)]
    simp

theorem utf8Len_replicate (n : Nat) (c : Char) :
    utf8Len (List.replicate n c) = n * (utf8Encode c).length := by
  induction n with
  | zero => simp [utf8Len, utf8Bytes]
  | succ n ih =>
    simp only [utf8Len] at ih
    simp only [utf8Len, List.replicate_succ, utf8Bytes, List.length_append, ih]
    rw [Nat.succ_mul, Nat.add_comm]

theorem splitLines_replicate (n : Nat) (x : Char) (hx : x.toNat ≠ 10) :
    splitLines (List.replicate (n + 1) x) = [] ++ List.replicate (n + 1) x :: [] := by
  have h : ∀ c ∈ List.replicate (n + 1) x, c.toNat ≠ 10 := by
    intro c hc
    rw [List.eq_of_mem_replicate hc]
    exact hx
  rw [splitLines, splitLinesFrom_of_no_newline _ _ h]
  simp

/-- C8, as stated, fails: a blame output that is one line of 65536 letters `x` has no
line that begins with the marker, yet the scan returns "error_scanning_blame_output"
together with an error, not the sentinel without error. -/
theorem scanBlameOutput_too_long :
    (∀ l ∈ splitLines (List.replicate 65536 (Char.ofNat 120)),
      beginsWithAuthorMarker (dropCR l) = false) ∧
    scanBlameOutput [] [] (List.replicate 65536 (Char.ofNat 120)) =
      ("error_scanning_blame_output".toList, some (.scanFailed [] [])) := by
  have hs : splitLines (List.replicate 65536 (Char.ofNat 120)) =
      [] ++ List.replicate 65536 (Char.ofNat 120) :: [] :=
    splitLines_replicate 65535 (Char.ofNat 120) (by decide)
  refine ⟨?_, ?_⟩
  · intro l hl
    rw [hs] at hl
    simp only [List.nil_append, List.mem_singleton] at hl
    subst hl
    cases hb : beginsWithAuthorMarker (dropCR (List.replicate 65536 (Char.ofNat 120))) with
    | false => rfl
    | true =>
      obtain ⟨t, ht, _⟩ := (beginsWithAuthorMarker_iff _).1 hb
      have ha : Char.ofNat 97 ∈ dropCR (List.replicate 65536 (Char.ofNat 120)) := by
        rw [ht]
        exact List.mem_append_left _ (by decide)
      have := List.eq_of_mem_replicate (mem_of_mem_dropCR ha)
      revert this
      decide
  · refine (scanBlameOutput_cases [] [] _).2.2 [] _ [] hs ?_ ?_
    · intro x hx2
      exact absurd hx2 (List.not_mem_nil _)
    · rw [utf8Len_replicate]
      decide

/-- C8, amended: the scan of the blame output returns, without error, the trimmed
remainder of the first line that begins with `author` and a whitespace character,
provided that line and every line before it has fewer than 65536 bytes; it returns,
without error, "unknown_author_not_found_in_blame" when no line begins with the marker and
every line has fewer than 65536 bytes; and a line of 65536 bytes or more that comes
before any marker line makes it return "error_scanning_blame_output" with an error. -/
theorem scanBlameOutput_spec (filePath lineNumber out : Str) :
    (∀ pre l post, splitLines out = pre ++ l :: post →
      (∀ x ∈ pre, utf8Len x < maxScanTokenSize ∧ beginsWithAuthorMarker (dropCR x) = false) →
      utf8Len l < maxScanTokenSize → beginsWithAuthorMarker (dropCR l) = true →
      scanBlameOutput filePath lineNumber out = (trimSpace ((dropCR l).drop 6), none)) ∧
    ((∀ x ∈ splitLines out,
        utf8Len x < maxScanTokenSize ∧ beginsWithAuthorMarker (dropCR x) = false) →
      scanBlameOutput filePath lineNumber out =
        ("unknown_author_not_found_in_blame".toList, none)) ∧
    (∀ pre l post, splitLines out = pre ++ l :: post →
      (∀ x ∈ pre, utf8Len x < maxScanTokenSize ∧ beginsWithAuthorMarker (dropCR x) = false) →
      maxScanTokenSize ≤ utf8Len l →
      scanBlameOutput filePath lineNumber out =
        ("error_scanning_blame_output".toList, some (.scanFailed filePath lineNumber))) :=
  scanBlameOutput_cases filePath lineNumber out

theorem scanBlameOutput_spec_witness :
    scanBlameOutput [] [] "abc 1 1 1\nauthor-mail <x>\nauthor  Al Ice \t\nauthor Bob".toList =
      (trimSpace ((dropCR "author  Al Ice \t".toList).drop 6), none) ∧
    trimSpace ((dropCR "author  Al Ice \t".toList).drop 6) = "Al Ice".toList :=
  ⟨(scanBlameOutput_spec [] []
      "abc 1 1 1\nauthor-mail <x>\nauthor  Al Ice \t\nauthor Bob".toList).1
      ["abc 1 1 1".toList, "author-mail <x>".toList] "author  Al Ice \t".toList
      ["author Bob".toList] (by decide) (by decide) (by decide) (by decide),
   by decide⟩

/-! ## The main loop -/

theorem tallyTotal_increment (m : Tally) (a : Str) :
    tallyTotal (increment m a) = tallyTotal m + 1 := by
  induction m with
  | nil => simp [increment, tallyTotal]
  | cons e m ih =>
    obtain ⟨b, n⟩ := e
    simp only [tallyTotal] at ih
    by_cases h : b = a
    · simp only [increment, if_pos h, tallyTotal, List.map_cons, List.sum_cons]
      omega
    · simp only [increment, if_neg h, tallyTotal, List.map_cons, List.sum_cons, ih]
      omega

theorem tallyCount_increment_self (m : Tally) (a : Str) :
    tallyCount (increment m a) a = tallyCount m a + 1 := by
  induction m with
  | nil => simp [increment, tallyCount]
  | cons e m ih =>
    obtain ⟨b, n⟩ := e
    by_cases h : b = a
    · simp [increment, tallyCount, h]
    · simp [increment, tallyCount, h, ih]

theorem tallyCount_increment_other (m : Tally) {a b : Str} (hab : b ≠ a) :
    tallyCount (increment m a) b = tallyCount m b := by
  induction m with
  | nil =>
    have : ¬ a = b := fun h => hab h.symm
    simp [increment, tallyCount, this]
  | cons e m ih =>
    obtain ⟨c, n⟩ := e
    by_cases h : c = a
    · subst h
      have hcb : ¬ c = b := fun h2 => hab h2.symm
      simp [increment, tallyCount, hcb]
    · by_cases hcb : c = b
      · subst hcb
        simp [increment, tallyCount, h]
      · simp [increment, tallyCount, h, hcb, ih]

theorem keys_increment (m : Tally) (a : Str) :
    ∀ e ∈ increment m a, e.1 = a ∨ e.1 ∈ m.map Prod.fst := by
  induction m with
  | nil =>
    intro e he
    simp only [increment, List.mem_singleton] at he
    left; rw [he]
  | cons x m ih =>
    obtain ⟨b, n⟩ := x
    intro e he
    by_cases h : b = a
    · simp only [increment, if_pos h, List.mem_cons] at he
      rcases he with rfl | he
      · left; exact h
      · right; exact List.mem_cons_of_mem _ (List.mem_map_of_mem _ he)
    · simp only [increment, if_neg h, List.mem_cons] at he
      rcases he with rfl | he
      · right; exact List.mem_cons_self _ _
      · rcases ih e he with h1 | h1
        · left; exact h1
        · right; exact List.mem_cons_of_mem _ h1

theorem nodup_keys_increment (m : Tally) (a : Str) (h : (m.map Prod.fst).Nodup) :
    ((increment m a).map Prod.fst).Nodup := by
  induction m with
  | nil => simp [increment]
  | cons x m ih =>
    obtain ⟨b, n⟩ := x
    simp only [List.map_cons, List.nodup_cons] at h
    by_cases hb : b = a
    · simp only [increment, if_pos hb, List.map_cons, List.nodup_cons]
      exact h
    · simp only [increment, if_neg hb, List.map_cons, List.nodup_cons]
      refine ⟨fun hmem => ?_, ih h.2⟩
      obtain ⟨e, he, hfst⟩ := List.mem_map.1 hmem
      rcases keys_increment m a e he with h1 | h1
      · exact hb (hfst.symm.trans h1)
      · rw [hfst] at h1; exact h.1 h1

theorem mainStep_authorErrors (w : World) (st : MainState) (rawLine : Str) :
    (mainStep w st rawLine).authorErrors =
      if isMatched rawLine = true then
        increment st.authorErrors
          (attributedAuthor (getAuthorFromGitBlame w st.blameCalls.length
            (parseErrorLine (stripAnsi rawLine)).1 (parseErrorLine (stripAnsi rawLine)).2.1))
      else st.authorErrors := by
  unfold mainStep isMatched
  by_cases h : (parseErrorLine (stripAnsi rawLine)).2.2 = true
  · simp [h]
  · simp [h]

theorem mainStep_actualErrors (w : World) (st : MainState) (rawLine : Str) :
    (mainStep w st rawLine).actualErrorsFoundByRegex =
      st.actualErrorsFoundByRegex + (if isMatched rawLine = true then 1 else 0) := by
  unfold mainStep isMatched
  by_cases h : (parseErrorLine (stripAnsi rawLine)).2.2 = true
  · simp [h]
  · simp [h]

theorem mainStep_total (w : World) (st : MainState) (rawLine : Str) :
    tallyTotal (mainStep w st rawLine).authorErrors =
      tallyTotal st.authorErrors + (if isMatched rawLine = true then 1 else 0) := by
  rw [mainStep_authorErrors]
  by_cases h : isMatched rawLine = true
  · simp only [if_pos h, tallyTotal_increment]
  · simp only [if_neg h, Nat.add_zero]

theorem mainLoop_total (w : World) :
    ∀ (lines : List Str) (st : MainState),
      tallyTotal (mainLoop w st lines).authorErrors =
        tallyTotal st.authorErrors + (lines.filter isMatched).length ∧
      (mainLoop w st lines).actualErrorsFoundByRegex =
        st.actualErrorsFoundByRegex + (lines.filter isMatched).length := by
  intro lines
  induction lines with
  | nil => intro st; simp [mainLoop]
  | cons l lines ih =>
    intro st
    have h := ih (mainStep w st l)
    simp only [mainLoop, List.foldl_cons] at h ⊢
    rw [h.1, h.2, mainStep_total, mainStep_actualErrors]
    by_cases hm : isMatched l = true
    · simp only [hm, if_true, List.filter_cons_of_pos, List.length_cons]
      omega
    · simp only [hm, if_false, List.filter_cons_of_neg, Bool.false_eq_true, not_false_eq_true]
      omega

theorem attributedAuthor_ne_nil (r : Str × Option BlameError) : attributedAuthor r ≠ [] := by
  unfold attributedAuthor
  by_cases h : (if r.2.isSome = true then "unknown_blame_error".toList else r.1) = []
  · simp only [h, if_true]
    decide
  · simp only [h, if_false]
    exact h

theorem mainStep_keys (w : World) (st : MainState) (rawLine : Str)
    (h : ∀ e ∈ st.authorErrors, e.1 ≠ []) :
    ∀ e ∈ (mainStep w st rawLine).authorErrors, e.1 ≠ [] := by
  rw [mainStep_authorErrors]
  by_cases hm : isMatched rawLine = true
  · rw [if_pos hm]
    intro e he
    rcases keys_increment _ _ e he with h1 | h1
    · rw [h1]; exact attributedAuthor_ne_nil _
    · obtain ⟨x, hx, hfst⟩ := List.mem_map.1 h1
      rw [← hfst]; exact h x hx
  · rw [if_neg hm]
    exact h

theorem mainLoop_keys (w : World) :
    ∀ (lines : List Str) (st : MainState), (∀ e ∈ st.authorErrors, e.1 ≠ []) →
      ∀ e ∈ (mainLoop w st lines).authorErrors, e.1 ≠ [] := by
  intro lines
  induction lines with
  | nil => intro st h; exact h
  | cons l lines ih =>
    intro st h
    exact ih (mainStep w st l) (mainStep_keys w st l h)

theorem mainLoop_nodup_keys (w : World) :
    ∀ (lines : List Str) (st : MainState), (st.authorErrors.map Prod.fst).Nodup →
      ((mainLoop w st lines).authorErrors.map Prod.fst).Nodup := by
  intro lines
  induction lines with
  | nil => intro st h; exact h
  | cons l lines ih =>
    intro st h
    refine ih (mainStep w st l) ?_
    rw [mainStep_authorErrors]
    by_cases hm : isMatched l = true
    · rw [if_pos hm]; exact nodup_keys_increment _ _ h
    · rw [if_neg hm]; exact h

/-! ## The comparison of `printReport` is a strict total order -/

theorem char_eq_of_toNat {a b : Char} (h : a.toNat = b.toNat) : a = b := by
  rw [← Char.ofNat_toNat a, ← Char.ofNat_toNat b, h]

theorem bytesLess_append_left (e x y : List Nat) :
    bytesLess (e ++ x) (e ++ y) = bytesLess x y := by
  induction e with
  | nil => rfl
  | cons a e ih => simp [bytesLess, ih]

theorem bytesLess_asymm : ∀ a b : List Nat, bytesLess a b = true → bytesLess b a = false := by
  intro a
  induction a with
  | nil => intro b _; cases b <;> rfl
  | cons x s ih =>
    intro b h
    cases b with
    | nil => simp [bytesLess] at h
    | cons y t =>
      simp only [bytesLess, Bool.or_eq_true, Bool.and_eq_true, decide_eq_true_eq] at h
      simp only [bytesLess, Bool.or_eq_false_iff, Bool.and_eq_false_iff,
        decide_eq_false_iff_not]
      rcases h with h | ⟨h1, h2⟩
      · exact ⟨by omega, Or.inl (by omega)⟩
      · exact ⟨by omega, Or.inr (ih t h2)⟩

theorem utf8Encode_less (c d : Char) (x y : List Nat) (h : c.toNat < d.toNat) :
    bytesLess (utf8Encode c ++ x) (utf8Encode d ++ y) = true := by
  unfold utf8Encode
  simp only []
  split_ifs <;>
    simp only [List.cons_append, List.nil_append, bytesLess, Bool.or_eq_true,
      Bool.and_eq_true, decide_eq_true_eq] <;>
    omega

theorem strLess_nil_nil : strLess [] [] = false := rfl

theorem strLess_cons_nil (c : Char) (s : Str) : strLess (c :: s) [] = false := by
  unfold strLess utf8Bytes utf8Encode
  simp only []
  split_ifs <;> rfl

theorem strLess_nil_cons (c : Char) (s : Str) : strLess [] (c :: s) = true := by
  unfold strLess utf8Bytes utf8Encode
  simp only []
  split_ifs <;> rfl

/-- On texts, the byte order of Go strings is the lexicographic order by code points. -/
theorem strLess_cons_cons (a b : Char) (s t : Str) :
    strLess (a :: s) (b :: t) =
      (decide (a.toNat < b.toNat) || (decide (a.toNat = b.toNat) && strLess s t)) := by
  rcases Nat.lt_trichotomy a.toNat b.toNat with h | h | h
  · have h1 : strLess (a :: s) (b :: t) = true := utf8Encode_less a b _ _ h
    rw [h1]
    simp [h]
  · have hab := char_eq_of_toNat h
    subst hab
    have h1 : strLess (a :: s) (a :: t) = strLess s t := bytesLess_append_left _ _ _
    rw [h1]
    simp
  · have h1 : strLess (a :: s) (b :: t) = false :=
      bytesLess_asymm _ _ (utf8Encode_less b a _ _ h)
    rw [h1]
    have h2 : ¬ a.toNat < b.toNat := by omega
    have h3 : ¬ a.toNat = b.toNat := by omega
    simp [h2, h3]

theorem strLess_cons_false_iff (a b : Char) (s t : Str) :
    strLess (a :: s) (b :: t) = false ↔
      b.toNat ≤ a.toNat ∧ (a.toNat = b.toNat → strLess s t = false) := by
  rw [strLess_cons_cons]
  cases h : strLess s t <;> simp

theorem strLess_cons_true_iff (a b : Char) (s t : Str) :
    strLess (a :: s) (b :: t) = true ↔
      a.toNat < b.toNat ∨ (a.toNat = b.toNat ∧ strLess s t = true) := by
  rw [strLess_cons_cons]
  cases h : strLess s t <;> simp

theorem strLess_irrefl : ∀ a : Str, strLess a a = false := by
  intro a
  induction a with
  | nil => rfl
  | cons c s ih => exact (strLess_cons_false_iff c c s s).2 ⟨Nat.le_refl _, fun _ => ih⟩

theorem strLess_asymm : ∀ a b : Str, strLess a b = true → strLess b a = false :=
  fun _ _ h => bytesLess_asymm _ _ h

theorem strLess_antisymm :
    ∀ a b : Str, strLess a b = false → strLess b a = false → a = b := by
  intro a
  induction a with
  | nil =>
    intro b h _
    cases b with
    | nil => rfl
    | cons d t => rw [strLess_nil_cons] at h; cases h
  | cons c s ih =>
    intro b h1 h2
    cases b with
    | nil => rw [strLess_nil_cons] at h2; cases h2
    | cons d t =>
      rw [strLess_cons_false_iff] at h1 h2
      have hcd : c.toNat = d.toNat := Nat.le_antisymm h2.1 h1.1
      rw [char_eq_of_toNat hcd, ih t (h1.2 hcd) (h2.2 hcd.symm)]

theorem strLess_negtrans :
    ∀ c b a : Str, strLess b a = false → strLess c b = false → strLess c a = false := by
  intro c
  induction c with
  | nil =>
    intro b a h1 h2
    cases b with
    | nil => exact h1
    | cons y t => rw [strLess_nil_cons] at h2; cases h2
  | cons z u ih =>
    intro b a h1 h2
    cases a with
    | nil => exact strLess_cons_nil z u
    | cons x s =>
      cases b with
      | nil => rw [strLess_nil_cons] at h1; cases h1
      | cons y t =>
        rw [strLess_cons_false_iff] at h1 h2 ⊢
        refine ⟨Nat.le_trans h1.1 h2.1, fun hzx => ?_⟩
        have hyx : y.toNat = x.toNat := by omega
        have hzy : z.toNat = y.toNat := by omega
        exact ih t s (h1.2 hyx) (h2.2 hzy)

theorem less_false_iff (x y : AuthorErrorCount) :
    less y x = false ↔ InReportOrder x y := by
  unfold less InReportOrder
  by_cases h : y.Count = x.Count
  · simp only [if_pos h]
    constructor
    · intro hs; exact ⟨Nat.le_of_eq h, fun _ => hs⟩
    · intro hs; exact hs.2 h.symm
  · simp only [if_neg h, decide_eq_false_iff_not]
    constructor
    · intro hs; exact ⟨by omega, fun he => absurd he.symm h⟩
    · intro hs; have := hs.1; omega

theorem inReportOrder_total (x y : AuthorErrorCount) :
    InReportOrder x y ∨ InReportOrder y x := by
  unfold InReportOrder
  rcases Nat.lt_trichotomy x.Count y.Count with h | h | h
  · right; exact ⟨Nat.le_of_lt h, fun he => absurd he.symm (Nat.ne_of_lt h)⟩
  · cases hs : strLess y.Author x.Author with
    | false => left; exact ⟨Nat.le_of_eq h.symm, fun _ => rfl⟩
    | true => right; exact ⟨Nat.le_of_eq h, fun _ => strLess_asymm _ _ hs⟩
  · left; exact ⟨Nat.le_of_lt h, fun he => absurd he (Nat.ne_of_gt h)⟩

theorem inReportOrder_trans {x y z : AuthorErrorCount} (h1 : InReportOrder x y)
    (h2 : InReportOrder y z) : InReportOrder x z := by
  unfold InReportOrder at h1 h2 ⊢
  refine ⟨Nat.le_trans h2.1 h1.1, fun he => ?_⟩
  have hxy : x.Count = y.Count := by have := h1.1; have := h2.1; omega
  have hyz : y.Count = z.Count := by have := h1.1; have := h2.1; omega
  exact strLess_negtrans _ _ _ (h1.2 hxy) (h2.2 hyz)

theorem inReportOrder_antisymm {x y : AuthorErrorCount} (h1 : InReportOrder x y)
    (h2 : InReportOrder y x) : x = y := by
  unfold InReportOrder at h1 h2
  have hc : x.Count = y.Count := Nat.le_antisymm h2.1 h1.1
  have ha : x.Author = y.Author := strLess_antisymm _ _ (h2.2 hc.symm) (h1.2 hc)
  cases x; cases y
  simp only at hc ha
  rw [hc, ha]

theorem sortSlice_perm (counts : List AuthorErrorCount) : (sortSlice counts).Perm counts :=
  List.perm_insertionSort _ counts

theorem sortSlice_sorted (counts : List AuthorErrorCount) :
    (sortSlice counts).Pairwise (fun x y => less y x = false) := by
  haveI : IsTotal AuthorErrorCount (fun x y => less y x = false) :=
    ⟨fun x y => by
      rcases inReportOrder_total x y with h | h
      · exact Or.inl ((less_false_iff x y).2 h)
      · exact Or.inr ((less_false_iff y x).2 h)⟩
  haveI : IsTrans AuthorErrorCount (fun x y => less y x = false) :=
    ⟨fun x y z h1 h2 =>
      (less_false_iff x z).2
        (inReportOrder_trans ((less_false_iff x y).1 h1) ((less_false_iff y z).1 h2))⟩
  exact List.sorted_insertionSort _ counts

theorem sortSliceResult_unique {c1 c2 r1 r2 : List AuthorErrorCount} (hc : c1.Perm c2)
    (h1 : IsSortSliceResult c1 r1) (h2 : IsSortSliceResult c2 r2) : r1 = r2 := by
  haveI : IsAntisymm AuthorErrorCount (fun x y => less y x = false) :=
    ⟨fun x y h1 h2 =>
      inReportOrder_antisymm ((less_false_iff x y).1 h1) ((less_false_iff y x).1 h2)⟩
  exact List.eq_of_perm_of_sorted ((h1.1.trans hc).trans h2.1.symm) h1.2 h2.2

theorem sortSlice_isResult (counts : List AuthorErrorCount) :
    IsSortSliceResult counts (sortSlice counts) :=
  ⟨sortSlice_perm counts, sortSlice_sorted counts⟩

theorem foldl_count_eq_sum (rows : List AuthorErrorCount) :
    ∀ total : Nat, rows.foldl (fun total item => total + item.Count) total =
      total + (rows.map AuthorErrorCount.Count).sum := by
  induction rows with
  | nil => intro total; simp
  | cons r rows ih =>
    intro total
    simp only [List.foldl_cons, ih, List.map_cons, List.sum_cons]
    omega

theorem printReport_table {ranged : Tally} (hne : ranged ≠ []) :
    printReport ranged =
      .table (sortSlice (ranged.map toRow)) (tallyTotal ranged) := by
  have hl : ¬ ranged.length = 0 := fun h => hne (List.length_eq_zero.1 h)
  have hsum : ((sortSlice (ranged.map toRow)).map AuthorErrorCount.Count).sum =
      tallyTotal ranged := by
    rw [((sortSlice_perm (ranged.map toRow)).map AuthorErrorCount.Count).sum_eq]
    simp only [tallyTotal, List.map_map]
    rfl
  have hf := foldl_count_eq_sum (sortSlice (ranged.map toRow)) 0
  rw [hsum, Nat.zero_add] at hf
  unfold printReport
  rw [if_neg hl]
  show Report.table (sortSlice (ranged.map toRow))
    ((sortSlice (ranged.map toRow)).foldl (fun total item => total + item.Count) 0) = _
  rw [hf]

theorem tallyTotal_perm {m1 m2 : Tally} (h : m1.Perm m2) : tallyTotal m1 = tallyTotal m2 :=
  (h.map Prod.snd).sum_eq

theorem sortSlice_sum (counts : List AuthorErrorCount) :
    ((sortSlice counts).map AuthorErrorCount.Count).sum =
      (counts.map AuthorErrorCount.Count).sum :=
  ((sortSlice_perm counts).map AuthorErrorCount.Count).sum_eq

theorem mainStep_matched (w : World) (st : MainState) {rawLine filePath lineNumber : Str}
    (hp : parseErrorLine (stripAnsi rawLine) = (filePath, lineNumber, true)) :
    (mainStep w st rawLine).authorErrors =
      increment st.authorErrors
        (attributedAuthor (getAuthorFromGitBlame w st.blameCalls.length filePath lineNumber)) := by
  have hm : isMatched rawLine = true := by simp [isMatched, hp]
  rw [mainStep_authorErrors, if_pos hm, hp]

theorem trimSpace_all_space {s : Str} (h : ∀ c ∈ s, isSpace c = true) : trimSpace s = [] := by
  have : s.dropWhile isSpace = [] := List.dropWhile_eq_nil_iff.2 h
  simp [trimSpace, this]

/-! ## The claims about the main loop and the report -/

/-- C1, as stated, fails: with `src/app.ts` missing, the run over the one diagnostic
line ends with the tally {unknown_blame_error: 1}: `getAuthorFromGitBlame` takes its
FileNotFound branch, and `main` replaces the author by "unknown_blame_error" because the
error is non-nil. -/
theorem file_not_found_counted_as_blame_error :
    getAuthorFromGitBlame ⟨fun _ _ => true, fun _ _ _ => .ok []⟩ 0 "src/app.ts".toList
        "10".toList =
      ("unknown_file_not_found".toList, some (.fileNotFound "src/app.ts".toList)) ∧
    (mainLoop ⟨fun _ _ => true, fun _ _ _ => .ok []⟩ MainState.init
      ["src/app.ts(10,5): error TS2322: Type 'string' is not assignable.".toList]).authorErrors
      = [("unknown_blame_error".toList, 1)] ∧
    (mainLoop ⟨fun _ _ => true, fun _ _ _ => .ok []⟩ MainState.init
      ["src/app.ts(10,5): error TS2322: Type 'string' is not assignable.".toList]).authorErrors
      ≠ [("unknown_file_not_found".toList, 1)] := by
  decide

/-- C1, amended: for every matched diagnostic line whose file path does not exist on
disk, `getAuthorFromGitBlame` returns "unknown_file_not_found" with a non-nil error and
the main loop increments the tally entry "unknown_blame_error" by one, leaving every
other entry as it was. -/
theorem file_not_found_attribution (w : World) (st : MainState)
    (rawLine filePath lineNumber : Str)
    (hp : parseErrorLine (stripAnsi rawLine) = (filePath, lineNumber, true))
    (hn : w.notExist st.blameCalls.length filePath = true) :
    getAuthorFromGitBlame w st.blameCalls.length filePath lineNumber =
      ("unknown_file_not_found".toList, some (.fileNotFound filePath)) ∧
    (mainStep w st rawLine).authorErrors =
      increment st.authorErrors "unknown_blame_error".toList ∧
    tallyCount (mainStep w st rawLine).authorErrors "unknown_blame_error".toList =
      tallyCount st.authorErrors "unknown_blame_error".toList + 1 ∧
    (∀ a, a ≠ "unknown_blame_error".toList →
      tallyCount (mainStep w st rawLine).authorErrors a = tallyCount st.authorErrors a) := by
  have hg : getAuthorFromGitBlame w st.blameCalls.length filePath lineNumber =
      ("unknown_file_not_found".toList, some (.fileNotFound filePath)) := by
    simp [getAuthorFromGitBlame, hn]
  have hs : (mainStep w st rawLine).authorErrors =
      increment st.authorErrors "unknown_blame_error".toList := by
    rw [mainStep_matched w st hp, hg]
    rfl
  refine ⟨hg, hs, ?_, ?_⟩
  · rw [hs, tallyCount_increment_self]
  · intro a ha
    rw [hs, tallyCount_increment_other _ ha]

theorem file_not_found_attribution_witness :
    (mainStep ⟨fun _ _ => true, fun _ _ _ => .ok []⟩ MainState.init
      "src/app.ts(10,5): error TS2322: Type 'string' is not assignable.".toList).authorErrors
      = increment [] "unknown_blame_error".toList :=
  (file_not_found_attribution ⟨fun _ _ => true, fun _ _ _ => .ok []⟩ MainState.init
    "src/app.ts(10,5): error TS2322: Type 'string' is not assignable.".toList
    "src/app.ts".toList "10".toList (by decide) (by decide)).2.1

/-- C3: whatever the blame lookups answer, the counts of the tally that the main loop
hands to `printReport` add up to the number of input lines on which
`parseErrorLine (stripAnsi line)` reported a match, and so do the printed rows and the
printed grand total; a matched line adds one to the count of exactly one author. -/
theorem report_total_eq_matched (w : World) (lines : List Str) (ranged : Tally)
    (hr : ranged.Perm (mainLoop w MainState.init lines).authorErrors) :
    tallyTotal (mainLoop w MainState.init lines).authorErrors =
      (lines.filter isMatched).length ∧
    (mainLoop w MainState.init lines).actualErrorsFoundByRegex =
      (lines.filter isMatched).length ∧
    (∀ rows total, printReport ranged = .table rows total →
      total = (lines.filter isMatched).length ∧
      (rows.map AuthorErrorCount.Count).sum = (lines.filter isMatched).length) ∧
    (printReport ranged = .noErrors → (lines.filter isMatched).length = 0) ∧
    (∀ st rawLine, isMatched rawLine = true → ∃ author,
      (mainStep w st rawLine).authorErrors = increment st.authorErrors author ∧
      tallyCount (mainStep w st rawLine).authorErrors author =
        tallyCount st.authorErrors author + 1 ∧
      (∀ b, b ≠ author →
        tallyCount (mainStep w st rawLine).authorErrors b = tallyCount st.authorErrors b) ∧
      tallyTotal (mainStep w st rawLine).authorErrors = tallyTotal st.authorErrors + 1) := by
  have hloop := mainLoop_total w lines MainState.init
  have h0 : tallyTotal MainState.init.authorErrors = 0 := rfl
  have h1 : MainState.init.actualErrorsFoundByRegex = 0 := rfl
  simp only [h0, h1, Nat.zero_add] at hloop
  have htot : tallyTotal ranged = (lines.filter isMatched).length := by
    rw [tallyTotal_perm hr]; exact hloop.1
  refine ⟨hloop.1, hloop.2, ?_, ?_, ?_⟩
  · intro rows total hrep
    by_cases hne : ranged = []
    · subst hne
      simp [printReport] at hrep
    · rw [printReport_table hne] at hrep
      simp only [Report.table.injEq] at hrep
      obtain ⟨hrows, htotal⟩ := hrep
      refine ⟨by rw [← htotal, htot], ?_⟩
      rw [← hrows, sortSlice_sum, ← htot]
      simp only [tallyTotal, List.map_map]
      rfl
  · intro hrep
    by_cases hne : ranged = []
    · subst hne
      rw [← htot]; rfl
    · rw [printReport_table hne] at hrep
      cases hrep
  · intro st rawLine hm
    refine ⟨attributedAuthor (getAuthorFromGitBlame w st.blameCalls.length
      (parseErrorLine (stripAnsi rawLine)).1 (parseErrorLine (stripAnsi rawLine)).2.1),
      ?_, ?_, ?_, ?_⟩
    · rw [mainStep_authorErrors, if_pos hm]
    · rw [mainStep_authorErrors, if_pos hm, tallyCount_increment_self]
    · intro b hb
      rw [mainStep_authorErrors, if_pos hm, tallyCount_increment_other _ hb]
    · rw [mainStep_total, if_pos hm]

theorem report_total_eq_matched_witness :
    tallyTotal (mainLoop ⟨fun _ _ => false, fun _ _ _ => .ok "author Alice".toList⟩
      MainState.init
      ["src/app.ts(10,5): error TS2322: x".toList, "Compiling project...".toList,
        "src/b.ts(1,1): error TS1: y".toList]).authorErrors =
      (["src/app.ts(10,5): error TS2322: x".toList, "Compiling project...".toList,
        "src/b.ts(1,1): error TS1: y".toList].filter isMatched).length ∧
    (["src/app.ts(10,5): error TS2322: x".toList, "Compiling project...".toList,
        "src/b.ts(1,1): error TS1: y".toList].filter isMatched).length = 2 :=
  ⟨(report_total_eq_matched ⟨fun _ _ => false, fun _ _ _ => .ok "author Alice".toList⟩
      ["src/app.ts(10,5): error TS2322: x".toList, "Compiling project...".toList,
        "src/b.ts(1,1): error TS1: y".toList] _ (List.Perm.refl _)).1,
   by decide⟩

/-- C4: for every non-empty tally, in whatever order the map yields its entries, the rows
that `printReport` prints are a permutation of the entries, each author once with its own
count, with counts non-increasing and, among equal counts, authors non-decreasing. -/
theorem printReport_rows_sorted (m ranged : Tally) (hne : m ≠ [])
    (hk : (m.map Prod.fst).Nodup) (hr : ranged.Perm m) :
    ∃ rows total, printReport ranged = .table rows total ∧
      rows.Perm (m.map toRow) ∧ (rows.map AuthorErrorCount.Author).Nodup ∧
      rows.Pairwise InReportOrder := by
  have hne2 : ranged ≠ [] := fun h => hne (by rw [h] at hr; exact hr.nil_eq.symm)
  have hperm : (sortSlice (ranged.map toRow)).Perm (m.map toRow) :=
    (sortSlice_perm _).trans (hr.map toRow)
  refine ⟨_, _, printReport_table hne2, hperm, ?_, ?_⟩
  · have h2 : ((sortSlice (ranged.map toRow)).map AuthorErrorCount.Author).Perm
        (m.map Prod.fst) := by
      have := hperm.map AuthorErrorCount.Author
      simpa [List.map_map, Function.comp, toRow] using this
    exact h2.nodup_iff.2 hk
  · exact (sortSlice_sorted _).imp fun {x y} h => (less_false_iff x y).1 h

theorem printReport_rows_sorted_witness :
    ∃ rows total, printReport [("Bob".toList, 1), ("Alice".toList, 2)] = .table rows total ∧
      rows.Perm ([("Alice".toList, 2), ("Bob".toList, 1)].map toRow) ∧
      (rows.map AuthorErrorCount.Author).Nodup ∧ rows.Pairwise InReportOrder :=
  printReport_rows_sorted [("Alice".toList, 2), ("Bob".toList, 1)]
    [("Bob".toList, 1), ("Alice".toList, 2)] (by decide) (by decide)
    (List.Perm.swap _ _ _)

/-- C9: a matched diagnostic whose lookup returns the empty author without error (an
`author` line that carries only whitespace) is counted under "unknown_author_empty", and
the tally of a run never has the empty string as a key. -/
theorem unknown_author_empty (w : World) :
    (∀ (st : MainState) (rawLine filePath lineNumber : Str),
      parseErrorLine (stripAnsi rawLine) = (filePath, lineNumber, true) →
      getAuthorFromGitBlame w st.blameCalls.length filePath lineNumber = ([], none) →
      (mainStep w st rawLine).authorErrors =
        increment st.authorErrors "unknown_author_empty".toList) ∧
    (∀ (k : Nat) (filePath lineNumber out : Str) (pre : List Str) (l : Str)
      (post : List Str),
      w.notExist k filePath = false → w.runBlame k filePath lineNumber = .ok out →
      splitLines out = pre ++ l :: post →
      (∀ x ∈ pre, utf8Len x < maxScanTokenSize ∧ beginsWithAuthorMarker (dropCR x) = false) →
      utf8Len l < maxScanTokenSize → beginsWithAuthorMarker (dropCR l) = true →
      (∀ c ∈ (dropCR l).drop 6, isSpace c = true) →
      getAuthorFromGitBlame w k filePath lineNumber = ([], none)) ∧
    (∀ (lines : List Str), ∀ e ∈ (mainLoop w MainState.init lines).authorErrors,
      e.1 ≠ []) := by
  refine ⟨?_, ?_, ?_⟩
  · intro st rawLine filePath lineNumber hp hg
    rw [mainStep_matched w st hp, hg]
    rfl
  · intro k filePath lineNumber out pre l post hex hrun hs hpre hl hm hsp
    have h := (scanBlameOutput_cases filePath lineNumber out).1 pre l post hs hpre hl hm
    rw [trimSpace_all_space hsp] at h
    simp [getAuthorFromGitBlame, hex, hrun, h]
  · intro lines
    exact mainLoop_keys w lines MainState.init fun e he => absurd he (List.not_mem_nil _)

theorem unknown_author_empty_witness :
    (mainStep ⟨fun _ _ => false, fun _ _ _ => .ok "author  \n".toList⟩ MainState.init
      "src/app.ts(10,5): error TS2322: x".toList).authorErrors =
      increment [] "unknown_author_empty".toList :=
  (unknown_author_empty ⟨fun _ _ => false, fun _ _ _ => .ok "author  \n".toList⟩).1
    MainState.init "src/app.ts(10,5): error TS2322: x".toList "src/app.ts".toList
    "10".toList (by decide) (by decide)

/-- C10: the report depends on the contents of the tally alone: two orders in which the
map may yield its entries give the same report, whatever rearrangement `sort.Slice`
makes within its contract, because the comparison of `printReport` is a strict total
order on rows. -/
theorem printReport_order_independent (e1 e2 : Tally) (h : e1.Perm e2) :
    printReport e1 = printReport e2 ∧
    (∀ r1 r2, IsSortSliceResult (e1.map toRow) r1 → IsSortSliceResult (e2.map toRow) r2 →
      r1 = r2) ∧
    (∀ x, less x x = false) ∧
    (∀ x y, less x y = true → less y x = false) ∧
    (∀ x y z, less x y = true → less y z = true → less x z = true) ∧
    (∀ x y, x ≠ y → less x y = true ∨ less y x = true) := by
  have hasymm : ∀ x y, less x y = true → less y x = false := by
    intro x y hxy
    rcases inReportOrder_total x y with h1 | h1
    · exact (less_false_iff x y).2 h1
    · rw [(less_false_iff y x).2 h1] at hxy
      cases hxy
  refine ⟨?_, ?_, ?_, hasymm, ?_, ?_⟩
  · by_cases hne : e1 = []
    · subst hne
      rw [h.nil_eq]
    · have hne2 : e2 ≠ [] := fun h2 => hne (by rw [h2] at h; exact h.eq_nil)
      rw [printReport_table hne, printReport_table hne2, tallyTotal_perm h,
        sortSliceResult_unique (h.map toRow) (sortSlice_isResult _) (sortSlice_isResult _)]
  · intro r1 r2 h1 h2
    exact sortSliceResult_unique (h.map toRow) h1 h2
  · intro x
    exact (less_false_iff x x).2 ⟨Nat.le_refl _, fun _ => strLess_irrefl _⟩
  · intro x y z hxy hyz
    cases hxz : less x z with
    | true => rfl
    | false =>
      have hzx := (less_false_iff z x).1 hxz
      rcases inReportOrder_total x y with h1 | h1
      · have := (less_false_iff z y).2 (inReportOrder_trans hzx h1)
        rw [this] at hyz
        cases hyz
      · rw [(less_false_iff y x).2 h1] at hxy
        cases hxy
  · intro x y hne
    cases hxy : less x y with
    | true => left; rfl
    | false =>
      cases hyx : less y x with
      | true => right; rfl
      | false =>
        exact absurd
          (inReportOrder_antisymm ((less_false_iff x y).1 hyx) ((less_false_iff y x).1 hxy))
          hne

theorem printReport_order_independent_witness :
    printReport [("Bob".toList, 1), ("Alice".toList, 2)] =
      printReport [("Alice".toList, 2), ("Bob".toList, 1)] :=
  (printReport_order_independent [("Bob".toList, 1), ("Alice".toList, 2)]
    [("Alice".toList, 2), ("Bob".toList, 1)] (List.Perm.swap _ _ _)).1

end TsBlame
